import Mathlib

/-!
Verification of the LLM-Chess-Arena server core.

Shallow embedding of the server-side engine:
* `src/server/chess/Board.js`  — rules engine (board state, SAN parsing, move application),
* `src/server/chess/Game.js`   — turn loop fragments (clock debit, LLM retry/forfeit),
* `src/server/chess/LLMClient.js` — rate limiter and the inline think-tag demultiplexer,
* `src/server/index.js`        — game-start handler (shared-credential cooldown).

JS numbers are modelled as `Int` (all arithmetic here is integral), strings as
`List Char`, nullable values as `Option`, and the mutation of `this` as pure
state-passing: each method that mutates the Board is a function `Board → … → Board`,
and `applyMove` returns the move record (or `none`) together with the resulting
Board.  `Piece.js` is not part of the provided sources (only its importers are),
so its five tiny members are modelled from the specification.
-/

set_option maxRecDepth 4000

namespace Arena

/-- Modelled from the spec: `PieceType` of `Piece.js` (missing from the sources) —
"type ∈ {KING, QUEEN, ROOK, BISHOP, KNIGHT, PAWN}". -/
inductive PieceType where
  | KING | QUEEN | ROOK | BISHOP | KNIGHT | PAWN
deriving DecidableEq, Repr

/-- Modelled from the spec: `Color` of `Piece.js` (missing from the sources) —
"color ∈ {WHITE, BLACK}". -/
inductive Color where
  | WHITE | BLACK
deriving DecidableEq, Repr

/-- Modelled from the spec: `oppositeColor` of `Piece.js` (missing from the sources). -/
def oppositeColor : Color → Color
  | .WHITE => .BLACK
  | .BLACK => .WHITE

/-- Modelled from the spec: `colorName` of `Piece.js` (missing from the sources).
The spec's literal result strings ("Black wins by forfeit (White failed to make a
legal move)", "White's turn", …) fix `colorName(WHITE) = "White"` and
`colorName(BLACK) = "Black"`. -/
def colorName : Color → String
  | .WHITE => "White"
  | .BLACK => "Black"

/-- Modelled from the spec: `pieceFromSymbol` of `Piece.js` (missing from the
sources) — "A leading uppercase letter in `KQRBN` names the piece"; "Promotion
letter is mapped through the same piece letter set".  Letters outside the set map
to nothing (in JS the promotion field then stays unset). -/
def pieceFromSymbol : Char → Option PieceType
  | 'K' => some .KING
  | 'Q' => some .QUEEN
  | 'R' => some .ROOK
  | 'B' => some .BISHOP
  | 'N' => some .KNIGHT
  | _   => none

/-- A piece value `{ type, color }` (plain value object in `Board.js`). -/
structure Piece where
  type : PieceType
  color : Color
deriving DecidableEq, Repr

/-- A square `{ file, rank }`; JS numbers are modelled as `Int`. -/
structure Square where
  file : Int
  rank : Int
deriving DecidableEq, Repr

/-- The move record returned by `Board.applyMove` / built by `_parseAndResolve`.
The JS fields `from`/`to`/`notation` are Lean keywords or reserved tokens, so
they are called `fromSq`/`toSq`/`san` here. -/
structure MoveRec where
  fromSq : Square
  toSq : Square
  pieceType : PieceType
  promotion : Option PieceType
  capture : Bool
  castleKS : Bool
  castleQS : Bool
  san : List Char
deriving DecidableEq, Repr

/-- Board state (`Board.js` constructor fields).  `squares` is file-major:
`squares[file][rank]`, exactly as in the source. -/
structure Board where
  squares : List (List (Option Piece))
  whiteCanCastleKingside : Bool
  whiteCanCastleQueenside : Bool
  blackCanCastleKingside : Bool
  blackCanCastleQueenside : Bool
  enPassantTarget : Option Square
  halfMoveClock : Int
  capturedByWhite : List PieceType
  capturedByBlack : List PieceType
deriving DecidableEq, Repr

/-- `Board.getPiece(file, rank)`: out-of-range coordinates yield `null`;
in-range coordinates read `squares[file][rank]`. -/
def Board.getPiece (b : Board) (file rank : Int) : Option Piece :=
  if file < 0 ∨ file > 7 ∨ rank < 0 ∨ rank > 7 then none
  else ((b.squares.getD file.toNat []).getD rank.toNat none)

/-- `Board._setPiece(file, rank, piece)`.  The source only ever calls it with
coordinates produced by the in-range parser/generators; an out-of-range write
(reachable only through degenerate en-passant states) touches nothing that the
guarded reads can observe, so it is modelled as the identity. -/
def Board.setPiece (b : Board) (file rank : Int) (piece : Option Piece) : Board :=
  if 0 ≤ file ∧ file ≤ 7 ∧ 0 ≤ rank ∧ rank ≤ 7 then
    { b with squares :=
        b.squares.set file.toNat ((b.squares.getD file.toNat []).set rank.toNat piece) }
  else b

/-- The back-rank piece order of `_setupInitialPosition` (files a..h). -/
def backRankTypes : List PieceType :=
  [.ROOK, .KNIGHT, .BISHOP, .QUEEN, .KING, .BISHOP, .KNIGHT, .ROOK]

/-- The Board produced by the constructor (`_setupInitialPosition`): standard
initial position, all castling rights, no en-passant target, clock 0, empty
capture lists.  `squares` is file-major, so column `f` holds ranks 1..8 of
file `f`. -/
def initialBoard : Board where
  squares := (List.range 8).map fun f =>
    [some ⟨backRankTypes.getD f .ROOK, .WHITE⟩, some ⟨.PAWN, .WHITE⟩,
     none, none, none, none,
     some ⟨.PAWN, .BLACK⟩, some ⟨backRankTypes.getD f .ROOK, .BLACK⟩]
  whiteCanCastleKingside := true
  whiteCanCastleQueenside := true
  blackCanCastleKingside := true
  blackCanCastleQueenside := true
  enPassantTarget := none
  halfMoveClock := 0
  capturedByWhite := []
  capturedByBlack := []

/-- All 64 squares in the iteration order of the `Board.js` double loops
(`for f … for r …`: file-major). -/
def allSquares : List Square :=
  (List.range 8).flatMap fun f => (List.range 8).map fun r => ⟨(f : Int), (r : Int)⟩

/-- `Board._isPathClear(from, to)`: every square strictly between `from` and `to`
along the unit direction `(sign df, sign dr)` is empty.  The source walks square
by square; it is only ever invoked on aligned pairs (diagonal or orthogonal,
distinct), for which the walk visits exactly the `max |df| |dr| − 1` intermediate
squares indexed below. -/
def Board.isPathClear (b : Board) (s t : Square) : Bool :=
  let df := Int.sign (t.file - s.file)
  let dr := Int.sign (t.rank - s.rank)
  let steps := max (t.file - s.file).natAbs (t.rank - s.rank).natAbs
  (List.range (steps - 1)).all fun i =>
    (b.getPiece (s.file + (i + 1) * df) (s.rank + (i + 1) * dr)).isNone

/-- `Board._canPawnReach(color, from, to)` (the JS call site passes a fourth
`capture` argument that the function ignores). -/
def Board.canPawnReach (b : Board) (color : Color) (s t : Square) : Bool :=
  let dir : Int := if color = Color.WHITE then 1 else -1
  let df := t.file - s.file
  let dr := t.rank - s.rank
  let startRank : Int := if color = Color.WHITE then 1 else 6
  (df == 0 && dr == dir && (b.getPiece t.file t.rank).isNone)
  || (df == 0 && dr == 2 * dir && s.rank == startRank &&
      (b.getPiece s.file (s.rank + dir)).isNone && (b.getPiece t.file t.rank).isNone)
  || (df.natAbs == 1 && dr == dir &&
      ((match b.getPiece t.file t.rank with
        | some dp => dp.color != color
        | none => false) || b.enPassantTarget == some t))

/-- `Board._canPieceReach(type, color, from, to, capture)`. -/
def Board.canPieceReach (b : Board) (type : PieceType) (color : Color)
    (s t : Square) (capture : Bool) : Bool :=
  let df := t.file - s.file
  let dr := t.rank - s.rank
  let absDF := df.natAbs
  let absDR := dr.natAbs
  let _ := capture  -- forwarded to `_canPawnReach`, which has no such parameter
  if (match b.getPiece t.file t.rank with
      | some dp => dp.color == color
      | none => false) then false
  else match type with
    | .PAWN => b.canPawnReach color s t
    | .KNIGHT => (absDF == 1 && absDR == 2) || (absDF == 2 && absDR == 1)
    | .BISHOP => absDF == absDR && absDF != 0 && b.isPathClear s t
    | .ROOK => (df == 0 || dr == 0) && absDF + absDR != 0 && b.isPathClear s t
    | .QUEEN =>
        ((absDF == absDR && absDF != 0) || ((df == 0 || dr == 0) && absDF + absDR != 0))
        && b.isPathClear s t
    | .KING => decide (absDF ≤ 1) && decide (absDR ≤ 1) && absDF + absDR != 0

/-- `Board._canPieceAttack(type, color, from, to)`. -/
def Board.canPieceAttack (b : Board) (type : PieceType) (color : Color)
    (s t : Square) : Bool :=
  let df := t.file - s.file
  let dr := t.rank - s.rank
  let absDF := df.natAbs
  let absDR := dr.natAbs
  match type with
  | .PAWN => let dir : Int := if color = Color.WHITE then 1 else -1
             absDF == 1 && dr == dir
  | .KNIGHT => (absDF == 1 && absDR == 2) || (absDF == 2 && absDR == 1)
  | .BISHOP => absDF == absDR && absDF != 0 && b.isPathClear s t
  | .ROOK => (df == 0 || dr == 0) && absDF + absDR != 0 && b.isPathClear s t
  | .QUEEN =>
      ((absDF == absDR && absDF != 0) || ((df == 0 || dr == 0) && absDF + absDR != 0))
      && b.isPathClear s t
  | .KING => decide (absDF ≤ 1) && decide (absDR ≤ 1) && absDF + absDR != 0

/-- `Board._isSquareAttacked(target, attackerColor)`. -/
def Board.isSquareAttacked (b : Board) (target : Square) (attackerColor : Color) : Bool :=
  allSquares.any fun sq =>
    match b.getPiece sq.file sq.rank with
    | some p => p.color == attackerColor && b.canPieceAttack p.type attackerColor sq target
    | none => false

/-- `Board._findKing(color)` (file-major scan, first hit). -/
def Board.findKing (b : Board) (color : Color) : Option Square :=
  allSquares.find? fun sq => b.getPiece sq.file sq.rank == some ⟨.KING, color⟩

/-- `Board.isInCheck(color)`. -/
def Board.isInCheck (b : Board) (color : Color) : Bool :=
  match b.findKing color with
  | none => false
  | some king => b.isSquareAttacked king (oppositeColor color)

/-- `Board._executeCastle(kingside, color)`: repositions king and rook, clears
the en-passant target and both castling rights of the moving color.  Note that
it does not touch the half-move clock. -/
def Board.executeCastle (b : Board) (kingside : Bool) (color : Color) : Board :=
  let rank : Int := if color = Color.WHITE then 0 else 7
  let b1 :=
    if kingside then
      let king := b.getPiece 4 rank
      let rook := b.getPiece 7 rank
      ((((b.setPiece 4 rank none).setPiece 7 rank none).setPiece 6 rank king).setPiece 5 rank rook)
    else
      let king := b.getPiece 4 rank
      let rook := b.getPiece 0 rank
      ((((b.setPiece 4 rank none).setPiece 0 rank none).setPiece 2 rank king).setPiece 3 rank rook)
  let b2 := { b1 with enPassantTarget := none }
  if color = Color.WHITE then
    { b2 with whiteCanCastleKingside := false, whiteCanCastleQueenside := false }
  else
    { b2 with blackCanCastleKingside := false, blackCanCastleQueenside := false }

/-- `Board._updateCastlingRights(move, color)`. -/
def Board.updateCastlingRights (b : Board) (move : MoveRec) (color : Color) : Board :=
  let b1 :=
    if move.pieceType = .KING then
      if color = Color.WHITE then
        { b with whiteCanCastleKingside := false, whiteCanCastleQueenside := false }
      else
        { b with blackCanCastleKingside := false, blackCanCastleQueenside := false }
    else b
  let f := move.fromSq
  let t := move.toSq
  let b2 := if f.file = 0 ∧ f.rank = 0 then { b1 with whiteCanCastleQueenside := false } else b1
  let b3 := if f.file = 7 ∧ f.rank = 0 then { b2 with whiteCanCastleKingside := false } else b2
  let b4 := if f.file = 0 ∧ f.rank = 7 then { b3 with blackCanCastleQueenside := false } else b3
  let b5 := if f.file = 7 ∧ f.rank = 7 then { b4 with blackCanCastleKingside := false } else b4
  let b6 := if t.file = 0 ∧ t.rank = 0 then { b5 with whiteCanCastleQueenside := false } else b5
  let b7 := if t.file = 7 ∧ t.rank = 0 then { b6 with whiteCanCastleKingside := false } else b6
  let b8 := if t.file = 0 ∧ t.rank = 7 then { b7 with blackCanCastleQueenside := false } else b7
  if t.file = 7 ∧ t.rank = 7 then { b8 with blackCanCastleKingside := false } else b8

/-- The bookkeeping statements of `Board._executeMove` that precede the piece
relocation, in source order: en-passant or normal capture accounting,
en-passant target update, half-move clock, castling rights. -/
def Board.execBookkeeping (b : Board) (move : MoveRec) (piece : Piece) : Board :=
      let color := piece.color
      let b1 :=
        if piece.type = .PAWN ∧ b.enPassantTarget = some move.toSq then
          let capRank : Int := if color = Color.WHITE then move.toSq.rank - 1 else move.toSq.rank + 1
          let b' :=
            match b.getPiece move.toSq.file capRank with
            | some cp =>
                if color = Color.WHITE then
                  { b with capturedByWhite := b.capturedByWhite ++ [cp.type] }
                else
                  { b with capturedByBlack := b.capturedByBlack ++ [cp.type] }
            | none => b
          b'.setPiece move.toSq.file capRank none
        else
          match b.getPiece move.toSq.file move.toSq.rank with
          | some dp =>
              if color = Color.WHITE then
                { b with capturedByWhite := b.capturedByWhite ++ [dp.type] }
              else
                { b with capturedByBlack := b.capturedByBlack ++ [dp.type] }
          | none => b
      let b2 :=
        if piece.type = .PAWN ∧ (move.toSq.rank - move.fromSq.rank).natAbs = 2 then
          let epRank := Int.fdiv (move.fromSq.rank + move.toSq.rank) 2
          { b1 with enPassantTarget := some ⟨move.fromSq.file, epRank⟩ }
        else { b1 with enPassantTarget := none }
      let b3 :=
        if piece.type = .PAWN ∨ move.capture then
          { b2 with halfMoveClock := 0 }
        else
          { b2 with halfMoveClock := b2.halfMoveClock + 1 }
      b3.updateCastlingRights move color

/-- `Board._executeMove(move)`, in the exact statement order of the source:
castle dispatch; missing source piece is a no-op; the bookkeeping statements
(`execBookkeeping`); and finally the piece relocation (with promotion
placement when the move carries a promotion type). -/
def Board.executeMove (b : Board) (move : MoveRec) : Board :=
  if move.castleKS then
    b.executeCastle true (if move.fromSq.rank = 0 then .WHITE else .BLACK)
  else if move.castleQS then
    b.executeCastle false (if move.fromSq.rank = 0 then .WHITE else .BLACK)
  else
    match b.getPiece move.fromSq.file move.fromSq.rank with
    | none => b
    | some piece =>
      let b5 := (b.execBookkeeping move piece).setPiece
        move.fromSq.file move.fromSq.rank none
      match move.promotion with
      | some pt => b5.setPiece move.toSq.file move.toSq.rank (some ⟨pt, piece.color⟩)
      | none => b5.setPiece move.toSq.file move.toSq.rank (some piece)

/-- `Board._resolveCastle(kingside, color)`: all castling preconditions, then the
king-move record. -/
def Board.resolveCastle (b : Board) (kingside : Bool) (color : Color) : Option MoveRec :=
  let rank : Int := if color = Color.WHITE then 0 else 7
  match b.getPiece 4 rank with
  | none => none
  | some king =>
    if king.type ≠ .KING ∨ king.color ≠ color then none
    else if kingside then
      if color = Color.WHITE ∧ ¬b.whiteCanCastleKingside then none
      else if color = Color.BLACK ∧ ¬b.blackCanCastleKingside then none
      else if (b.getPiece 5 rank).isSome ∨ (b.getPiece 6 rank).isSome then none
      else match b.getPiece 7 rank with
        | none => none
        | some rook =>
          if rook.type ≠ .ROOK ∨ rook.color ≠ color then none
          else if b.isInCheck color then none
          else if b.isSquareAttacked ⟨5, rank⟩ (oppositeColor color) then none
          else if b.isSquareAttacked ⟨6, rank⟩ (oppositeColor color) then none
          else some { fromSq := ⟨4, rank⟩, toSq := ⟨6, rank⟩, pieceType := .KING,
                      promotion := none, capture := false, castleKS := true,
                      castleQS := false, san := "O-O".toList }
    else
      if color = Color.WHITE ∧ ¬b.whiteCanCastleQueenside then none
      else if color = Color.BLACK ∧ ¬b.blackCanCastleQueenside then none
      else if (b.getPiece 1 rank).isSome ∨ (b.getPiece 2 rank).isSome ∨ (b.getPiece 3 rank).isSome then none
      else match b.getPiece 0 rank with
        | none => none
        | some rook =>
          if rook.type ≠ .ROOK ∨ rook.color ≠ color then none
          else if b.isInCheck color then none
          else if b.isSquareAttacked ⟨3, rank⟩ (oppositeColor color) then none
          else if b.isSquareAttacked ⟨2, rank⟩ (oppositeColor color) then none
          else some { fromSq := ⟨4, rank⟩, toSq := ⟨2, rank⟩, pieceType := .KING,
                      promotion := none, capture := false, castleKS := false,
                      castleQS := true, san := "O-O-O".toList }

/-- The candidate list built by the first half of `Board._resolveSource`: every
own-color piece of the declared type that can geometrically reach `dest`
(file-major scan order), filtered by the disambiguation characters. -/
def Board.filteredCandidates (b : Board) (pieceType : PieceType) (color : Color)
    (dest : Square) (capture : Bool) (disambig : List Char) : List Square :=
  let candidates := allSquares.filter fun sq =>
    match b.getPiece sq.file sq.rank with
    | some p => p.type == pieceType && p.color == color &&
        b.canPieceReach pieceType color sq dest capture
    | none => false
  if disambig.length > 0 then
    candidates.filter fun sq => disambig.all fun c =>
      if 'a' ≤ c ∧ c ≤ 'h' then sq.file == ((c.toNat : Int) - 97)
      else if '1' ≤ c ∧ c ≤ '8' then sq.rank == ((c.toNat : Int) - 49)
      else true
  else candidates

/-- The per-candidate legality test of `Board._resolveSource`: execute the
candidate move on a copy and check the mover is not left in check. -/
def Board.checkSafe (b : Board) (pieceType : PieceType) (color : Color)
    (dest : Square) (capture : Bool) (src : Square) : Bool :=
  let testMove : MoveRec :=
    { fromSq := src, toSq := dest, pieceType := pieceType, promotion := none,
      capture := capture, castleKS := false, castleQS := false, san := [] }
  !(b.executeMove testMove).isInCheck color

/-- `Board._resolveSource`: geometric candidates, disambiguation filter, then
the check-safety filter; succeeds iff exactly one candidate remains. -/
def Board.resolveSource (b : Board) (pieceType : PieceType) (color : Color)
    (dest : Square) (capture : Bool) (disambig : List Char) : Option Square :=
  let legal := (b.filteredCandidates pieceType color dest capture disambig).filter
    (b.checkSafe pieceType color dest capture)
  match legal with
  | [s] => some s
  | _ => none

/-- `Board._fromAlgebraic(s)`: two characters, file `'a'`-relative, rank
`'1'`-relative, bounds-checked. -/
def fromAlgebraic (s : List Char) : Option Square :=
  match s with
  | c0 :: c1 :: _ =>
    let file : Int := (c0.toNat : Int) - 97
    let rank : Int := (c1.toNat : Int) - 49
    if file < 0 ∨ file > 7 ∨ rank < 0 ∨ rank > 7 then none else some ⟨file, rank⟩
  | _ => none

/-- `Board._parseAndResolve(notation, color)`: castling literals, piece letter,
promotion suffix, capture marker, destination, disambiguation, source
resolution. -/
def Board.parseAndResolve (b : Board) (notation0 : List Char) (color : Color) :
    Option MoveRec :=
  if notation0 = "O-O".toList ∨ notation0 = "0-0".toList then b.resolveCastle true color
  else if notation0 = "O-O-O".toList ∨ notation0 = "0-0-0".toList then b.resolveCastle false color
  else
    let pr : PieceType × List Char :=
      match notation0 with
      | first :: restChars =>
        if 'A' ≤ first ∧ first ≤ 'Z' ∧ first ∈ ['K', 'Q', 'R', 'B', 'N'] then
          ((pieceFromSymbol first).getD .PAWN, restChars)
        else (.PAWN, notation0)
      | [] => (.PAWN, notation0)
    let pieceType := pr.1
    let rest0 := pr.2
    let pq : Option PieceType × List Char :=
      match rest0.findIdx? (· == '=') with
      | some eqIdx =>
        if eqIdx + 1 < rest0.length then
          (pieceFromSymbol (rest0.getD (eqIdx + 1) ' '), rest0.take eqIdx)
        else (none, rest0.take eqIdx)
      | none => (none, rest0)
    let promotion := pq.1
    let rest1 := pq.2
    let capture := rest1.contains 'x'
    let rest := rest1.filter (· != 'x')
    if rest.length < 2 then none
    else
      match fromAlgebraic (rest.drop (rest.length - 2)) with
      | none => none
      | some dest =>
        let disambig := rest.take (rest.length - 2)
        match b.resolveSource pieceType color dest capture disambig with
        | none => none
        | some source =>
          some { fromSq := source, toSq := dest, pieceType := pieceType,
                 promotion := promotion, capture := capture, castleKS := false,
                 castleQS := false, san := notation0 }

/-- JS `String.prototype.trim` on a character list. -/
def trimChars (l : List Char) : List Char :=
  ((l.dropWhile Char.isWhitespace).reverse.dropWhile Char.isWhitespace).reverse

/-- `Board.applyMove(notation, color)`: empty notation fails; the cleaned SAN is
parsed and resolved; the move is executed on a copy to verify the mover's king
is not left in check; only then is it executed on the Board itself.  The pair
returned is (move record or `none`, resulting Board); every failure path leaves
the Board exactly as it was. -/
def Board.applyMove (b : Board) (notation0 : List Char) (color : Color) :
    Option MoveRec × Board :=
  if notation0 = [] then (none, b)
  else
    match b.parseAndResolve
        ((trimChars notation0).filter fun c => c != '+' && c != '#' && c != '!' && c != '?')
        color with
    | none => (none, b)
    | some move =>
      if (b.executeMove move).isInCheck color then (none, b)
      else (some move, b.executeMove move)

/-- The `addIf` bounds test of `Board._generateTargets`. -/
def inBounds (f r : Int) : Bool :=
  decide (0 ≤ f) && decide (f ≤ 7) && decide (0 ≤ r) && decide (r ≤ 7)

/-- `Board._addSliding(targets, f, r, directions)`: for each direction, the ray
of squares from `(f, r)` until the edge of the board. -/
def addSliding (f r : Int) (directions : List (Int × Int)) : List Square :=
  directions.flatMap fun d =>
    ((List.range 7).map fun k =>
      Square.mk (f + ((k : Int) + 1) * d.1) (r + ((k : Int) + 1) * d.2)).filter
      fun sq => inBounds sq.file sq.rank

/-- `Board._generateTargets(type, color, from)` (the source method reads no
board state). -/
def generateTargets (type : PieceType) (color : Color) (s : Square) : List Square :=
  let f := s.file
  let r := s.rank
  match type with
  | .PAWN =>
    let dir : Int := if color = Color.WHITE then 1 else -1
    let startRank : Int := if color = Color.WHITE then 1 else 6
    (([Square.mk f (r + dir)]
      ++ (if r = startRank then [Square.mk f (r + 2 * dir)] else [])
      ++ [Square.mk (f - 1) (r + dir), Square.mk (f + 1) (r + dir)]).filter
      fun sq => inBounds sq.file sq.rank)
  | .KNIGHT =>
    (([(-2, -1), (-2, 1), (-1, -2), (-1, 2), (1, -2), (1, 2), (2, -1), (2, 1)] :
        List (Int × Int)).map fun d => Square.mk (f + d.1) (r + d.2)).filter
      fun sq => inBounds sq.file sq.rank
  | .BISHOP => addSliding f r [(1, 1), (1, -1), (-1, 1), (-1, -1)]
  | .ROOK => addSliding f r [(1, 0), (-1, 0), (0, 1), (0, -1)]
  | .QUEEN => addSliding f r [(1, 1), (1, -1), (-1, 1), (-1, -1), (1, 0), (-1, 0), (0, 1), (0, -1)]
  | .KING =>
    (([(-1, -1), (-1, 0), (-1, 1), (0, -1), (0, 1), (1, -1), (1, 0), (1, 1)] :
        List (Int × Int)).map fun d => Square.mk (f + d.1) (r + d.2)).filter
      fun sq => inBounds sq.file sq.rank

/-- `Board.getLegalMoves(file, rank)`: empty (or out-of-range) squares yield the
empty list; otherwise each geometric target square that the piece can reach and
whose execution does not leave the mover in check, plus castling destinations
for the king. -/
def Board.getLegalMoves (b : Board) (file rank : Int) : List Square :=
  match b.getPiece file rank with
  | none => []
  | some piece =>
    let color := piece.color
    let src : Square := ⟨file, rank⟩
    let targets := generateTargets piece.type color src
    let legalDests := targets.filter fun t =>
      let cap := (b.getPiece t.file t.rank).isSome
        || (piece.type == .PAWN && b.enPassantTarget == some t)
      let testMove : MoveRec :=
        { fromSq := src, toSq := t, pieceType := piece.type, promotion := none,
          capture := cap, castleKS := false, castleQS := false, san := [] }
      b.canPieceReach piece.type color src t cap &&
        !(b.executeMove testMove).isInCheck color
    if piece.type = .KING then
      legalDests
        ++ (match b.resolveCastle true color with | some ks => [ks.toSq] | none => [])
        ++ (match b.resolveCastle false color with | some qs => [qs.toSq] | none => [])
    else legalDests

/-- An empty 8×8 grid with the constructor's non-grid defaults (all castling
rights held, no en-passant target, clock 0, empty capture lists).  Used to set
up concrete test positions. -/
def emptyBoard : Board :=
  { initialBoard with squares := (List.range 8).map fun _ => List.replicate 8 none }

/-- Places a list of pieces (file, rank, piece) on the empty board. -/
def boardOfPieces (ps : List (Int × Int × Piece)) : Board :=
  ps.foldl (fun b p => b.setPiece p.1 p.2.1 (some p.2.2)) emptyBoard

/-! ### Game.js — clock debit step (`_playTurn`, the "Deduct time and add
increment" block) -/

/-- The Game fields that the clock-debit block of `Game._playTurn` reads and
writes.  Times are milliseconds (`Int`, as JS numbers); `result` is the
terminal result string, `none` while the game is running. -/
structure ClockGame where
  timeWhite : Int
  timeBlack : Int
  increment : Int
  unlimited : Bool
  turnStartedAt : Option Int
  result : Option String
deriving DecidableEq, Repr

/-- `Game._playTurn` lines 241–262: if the game is time-controlled and a turn
start time is recorded, the mover's clock becomes
`max 0 (time − (now − turnStartedAt)) + increment`; if that value is ≤ 0 the
clock is zeroed and `result` becomes `"<opponent> wins on time"` (and
`turnStartedAt` is left as is); otherwise `turnStartedAt` is cleared. -/
def clockDebit (g : ClockGame) (color : Color) (now : Int) : ClockGame :=
  match g.unlimited, g.turnStartedAt with
  | false, some t0 =>
    let elapsed := now - t0
    if color = Color.WHITE then
      let tw := max 0 (g.timeWhite - elapsed) + g.increment
      if tw ≤ 0 then
        { g with timeWhite := 0,
                 result := some (colorName (oppositeColor color) ++ " wins on time") }
      else { g with timeWhite := tw, turnStartedAt := none }
    else
      let tb := max 0 (g.timeBlack - elapsed) + g.increment
      if tb ≤ 0 then
        { g with timeBlack := 0,
                 result := some (colorName (oppositeColor color) ++ " wins on time") }
      else { g with timeBlack := tb, turnStartedAt := none }
  | _, _ => g

/-! ### Game.js — LLM retry loop (`_playTurn`, the LLM branch) -/

/-- One LLM attempt as observed by the turn loop: either the chat call threw,
or it produced a response whose parsed move string is `san`. -/
inductive Attempt where
  | threw
  | respond (san : List Char)
deriving DecidableEq, Repr

/-- The `for (attempt = 1 … maxRetries)` loop of `Game._playTurn` (LLM branch),
abstracted over the per-attempt chat outcomes: a thrown call or an illegal SAN
continues with the next attempt (the Board is unchanged by a failed
`applyMove`); the first accepted SAN ends the loop with the applied move and
the updated Board. -/
def runAttempts (b : Board) (color : Color) : List Attempt → Option (MoveRec × Board)
  | [] => none
  | .threw :: rest => runAttempts b color rest
  | .respond san :: rest =>
    match b.applyMove san color with
    | (some m, b') => some (m, b')
    | (none, _) => runAttempts b color rest

/-- The result string set by `Game._playTurn` when the retry loop ends without
an applied move. -/
def forfeitResult (color : Color) : String :=
  colorName (oppositeColor color) ++ " wins by forfeit (" ++ colorName color ++
    " failed to make a legal move)"

/-- The LLM-turn outcome: `none` result while the game goes on (a move was
applied), or the forfeit result when every attempt failed. -/
def llmTurnResult (b : Board) (color : Color) (outcomes : List Attempt) : Option String :=
  match runAttempts b color outcomes with
  | some _ => none
  | none => some (forfeitResult color)

/-! ### LLMClient.js — shared rate limiter -/

/-- `RATE_LIMIT_MS` of `LLMClient.js`. -/
def RATE_LIMIT_MS : Int := 3000

/-- `_rateLimit()` of `LLMClient.js` as a state transition on the module-level
`_nextAllowedAt` timestamp: called at wall-clock `now`, it waits
`max 0 (nextAllowedAt − now)` and advances `_nextAllowedAt` to
`max now nextAllowedAt + 3000`.  Returns (new `_nextAllowedAt`, the time at
which the caller's wait ends, i.e. its acquisition time `now + wait`). -/
def rateLimitStep (nextAllowedAt now : Int) : Int × Int :=
  let wait := max 0 (nextAllowedAt - now)
  (max now nextAllowedAt + RATE_LIMIT_MS, now + wait)

/-- The acquisition times of a sequence of `_rateLimit()` calls at wall-clock
times `nows`, starting from a given `_nextAllowedAt`. -/
def acqTimes (nextAllowedAt : Int) : List Int → List Int
  | [] => []
  | now :: rest =>
    let s := rateLimitStep nextAllowedAt now
    s.2 :: acqTimes s.1 rest

/-! ### index.js — `POST /api/game/start` (shared-credential cooldown) -/

/-- The request-body fields of the start handler that the cooldown and
credential checks read.  JS treats absent and empty-string fields alike
(falsy), so absence is modelled as `""`. -/
structure StartRequest where
  whiteApiUrl : String
  whiteApiKey : String
  blackApiUrl : String
  blackApiKey : String
  password : String
  humanSide : Option Color
deriving DecidableEq, Repr

/-- Server-side environment values read by the start handler. -/
structure ServerEnv where
  envWhiteApiKey : String
  envBlackApiKey : String
  bypassPassword : String
deriving DecidableEq, Repr

/-- JS `a || b` on strings (first operand wins unless falsy). -/
def jsOr (a b : String) : String := if a = "" then b else a

/-- `RATE_LIMIT_MS` of `index.js` (twenty minutes between Default-API games);
named apart from the LLMClient constant of the same JS name. -/
def INDEX_RATE_LIMIT_MS : Int := 20 * 60 * 1000

/-- The 429 error string built by the start handler
(`remainingMin = Math.ceil(remainingMs / 60000)`, with plural handling). -/
def cooldownError (remainingMs : Int) : String :=
  let remainingMin := (remainingMs.toNat + 59999) / 60000
  "Rate limited: you can start a new game using the Default API in "
    ++ toString remainingMin ++ " minute"
    ++ (if remainingMin ≠ 1 then "s" else "")
    ++ ". Use a bypass password or switch to Custom API."

/-- The responses the start handler can produce, as far as the cooldown claim
observes them: HTTP 409 conflict, HTTP 429 `{error, remainingMs, bypass}`,
HTTP 400 missing credentials, or success — `started` carries the rate-limit-map
entry for the token after the call (`recordedAt`) and the `bypass` flag of the
200 payload. -/
inductive StartResponse where
  | conflict
  | rateLimited (error : String) (remainingMs : Int) (bypass : Bool)
  | missingKeys (error : String)
  | started (recordedAt : Option Int) (bypass : Bool)
deriving DecidableEq, Repr

def StartResponse.is429 : StartResponse → Bool
  | .rateLimited _ _ _ => true
  | _ => false

def StartResponse.errorMsg : StartResponse → String
  | .rateLimited e _ _ => e
  | .missingKeys e => e
  | _ => ""

def StartResponse.remaining : StartResponse → Int
  | .rateLimited _ r _ => r
  | _ => 0

def StartResponse.bypassFlag : StartResponse → Bool
  | .rateLimited _ _ bp => bp
  | .started _ bp => bp
  | _ => false

/-- `app.post('/api/game/start')` of `index.js`, for a request carrying a
token: the in-progress conflict check; the shared-credential ("Default API")
determination per side; the bypass-password check; the per-token twenty-minute
cooldown with its 429 payload; the per-`humanSide` credential requirements; and
on success the recording of `now` in the rate-limit map (only for a
non-bypassed shared-credential start — otherwise the map entry is left as it
was). -/
def gameStart (env : ServerEnv) (activeUnfinished : Bool) (lastShared : Option Int)
    (req : StartRequest) (now : Int) : StartResponse :=
  if activeUnfinished then .conflict
  else
    let whiteKey := jsOr req.whiteApiKey env.envWhiteApiKey
    let blackKey := jsOr req.blackApiKey env.envBlackApiKey
    let whiteShared := req.whiteApiUrl = "" ∧ req.whiteApiKey = "" ∧ req.humanSide ≠ some Color.WHITE
    let blackShared := req.blackApiUrl = "" ∧ req.blackApiKey = "" ∧ req.humanSide ≠ some Color.BLACK
    let usesShared := whiteShared ∨ blackShared
    let bypassEnabled := env.bypassPassword ≠ "" ∧ req.password = env.bypassPassword
    let cooldownHit : Bool :=
      match lastShared with
      | some t => decide (now - t < INDEX_RATE_LIMIT_MS)
      | none => false
    if usesShared ∧ ¬bypassEnabled ∧ cooldownHit then
      .rateLimited (cooldownError (INDEX_RATE_LIMIT_MS - (now - lastShared.getD 0)))
        (INDEX_RATE_LIMIT_MS - (now - lastShared.getD 0)) false
    else
      let recordedAt : Option Int := if usesShared ∧ ¬bypassEnabled then some now else lastShared
      match req.humanSide with
      | none =>
        if whiteKey = "" ∨ blackKey = "" then
          .missingKeys "API keys are required. Set them in .env or send in request body."
        else .started recordedAt bypassEnabled
      | some Color.WHITE =>
        if blackKey = "" then .missingKeys "API key for Black (LLM) is required."
        else .started recordedAt bypassEnabled
      | some Color.BLACK =>
        if whiteKey = "" then .missingKeys "API key for White (LLM) is required."
        else .started recordedAt bypassEnabled

/-! ### Concrete test positions -/

/-- White Ke1 and Rh1, Black Ka8, all castling rights, half-move clock 5:
kingside castling is legal for White here. -/
def boardC1 : Board :=
  { boardOfPieces [(4, 0, ⟨.KING, .WHITE⟩), (7, 0, ⟨.ROOK, .WHITE⟩), (0, 7, ⟨.KING, .BLACK⟩)]
    with halfMoveClock := 5 }

/-- White Ke1 with knights on c3 and e3, Black Ka8 and Re7.  Both knights can
geometrically reach d5, but moving the e3-knight would expose the white king
to the e7-rook. -/
def boardC3 : Board :=
  boardOfPieces [(4, 0, ⟨.KING, .WHITE⟩), (2, 2, ⟨.KNIGHT, .WHITE⟩),
    (4, 2, ⟨.KNIGHT, .WHITE⟩), (0, 7, ⟨.KING, .BLACK⟩), (4, 6, ⟨.ROOK, .BLACK⟩)]

/-- White Ke1 and a pawn on a7, Black Kh8: the pawn may step to a8. -/
def boardC8 : Board :=
  boardOfPieces [(4, 0, ⟨.KING, .WHITE⟩), (0, 6, ⟨.PAWN, .WHITE⟩), (7, 7, ⟨.KING, .BLACK⟩)]

/-- The move record `applyMove` produces for `"a8"` on `boardC8`. -/
def moveC8 : MoveRec :=
  { fromSq := ⟨0, 6⟩, toSq := ⟨0, 7⟩, pieceType := .PAWN, promotion := none,
    capture := false, castleKS := false, castleQS := false, san := "a8".toList }

/-- A bounded-time game state with 1000 ms left for White and a 3000 ms
increment, whose turn began at time 0. -/
def gameC2 : ClockGame :=
  { timeWhite := 1000, timeBlack := 60000, increment := 3000, unlimited := false,
    turnStartedAt := some 0, result := none }

/-- The mover's clock field selected by `color`. -/
def moverTime (g : ClockGame) (color : Color) : Int :=
  if color = Color.WHITE then g.timeWhite else g.timeBlack

/-- An 8×8 grid. -/
def gridWellFormed (sq : List (List (Option Piece))) : Prop :=
  sq.length = 8 ∧ ∀ row ∈ sq, row.length = 8

instance (sq : List (List (Option Piece))) : Decidable (gridWellFormed sq) := by
  unfold gridWellFormed; infer_instance

/-- A Board whose grid is 8×8 (every JS Board satisfies this; Lean's `Board`
type also admits ragged lists, which the JS representation cannot express). -/
def Board.wellFormed (b : Board) : Prop :=
  gridWellFormed b.squares

instance (b : Board) : Decidable b.wellFormed := by
  unfold Board.wellFormed; infer_instance

/-- The shared-credential ("Default API") determination of the start handler:
either LLM side omits both its custom endpoint URL and its custom key. -/
def sharedCred (req : StartRequest) : Prop :=
  (req.whiteApiUrl = "" ∧ req.whiteApiKey = "" ∧ req.humanSide ≠ some Color.WHITE)
  ∨ (req.blackApiUrl = "" ∧ req.blackApiKey = "" ∧ req.humanSide ≠ some Color.BLACK)

instance (req : StartRequest) : Decidable (sharedCred req) := by
  unfold sharedCred; infer_instance

/-- The bypass-password check of the start handler: a bypass password is
configured and the request body supplies exactly it. -/
def bypassOk (env : ServerEnv) (req : StartRequest) : Prop :=
  env.bypassPassword ≠ "" ∧ req.password = env.bypassPassword

instance (env : ServerEnv) (req : StartRequest) : Decidable (bypassOk env req) := by
  unfold bypassOk; infer_instance

/-- Environment and request used to exercise the cooldown concretely. -/
def envC9 : ServerEnv := ⟨"k", "k", "pw"⟩

/-- A start request leaving every per-side field at its default (both sides
shared-credential, no bypass password). -/
def reqC9 : StartRequest := ⟨"", "", "", "", "", none⟩

/-! ### LLMClient.js — inline think-tag demultiplexer -/

/-- `OPEN_TAG` of `LLMClient.js`. -/
def OPEN_TAG : List Char := "<think>".toList

/-- `CLOSE_TAG` of `LLMClient.js`. -/
def CLOSE_TAG : List Char := "</think>".toList

/-- JS `String.prototype.indexOf` (first occurrence of `tag` in `l`). -/
def firstIdx (l tag : List Char) : Option Nat :=
  if tag.isPrefixOf l then some 0
  else
    match l with
    | [] => none
    | _ :: rest => (firstIdx rest tag).map (· + 1)

/-- The downward scan of `trailingPartialMatch`: the largest `len ≤ k` such
that `tag.slice(0, len)` is a suffix of `text` (0 if none). -/
def tpmGo (text tag : List Char) : Nat → Nat
  | 0 => 0
  | k + 1 => if (tag.take (k + 1)).isSuffixOf text then k + 1 else tpmGo text tag k

/-- `trailingPartialMatch(text, tag)` of `LLMClient.js`: the length of the
longest suffix of `text` that is a prefix of `tag`, capped at
`min(text.length, tag.length − 1)`. -/
def trailingPartialMatch (text tag : List Char) : Nat :=
  tpmGo text tag (min text.length (tag.length - 1))

/-- The mutable state of the `processContentText` closure: the
`insideThinkTag` flag, the deferred `tagMatchBuf`, and the two accumulation
buffers `thinkingBuf` / `contentBuf`. -/
structure DemuxState where
  inside : Bool
  buf : List Char
  thinking : List Char
  content : List Char
deriving DecidableEq, Repr

/-- The `while (work.length > 0)` loop of `processContentText`, with explicit
fuel (each iteration that continues consumes at least one character of `work`,
so any fuel exceeding `work.length` is never exhausted; see
`procLoopF_fuel_irrelevant`).  When the expected tag occurs, everything before
it is emitted with the current classification, the mode flips and the loop
continues after the tag; otherwise the longest trailing partial tag match is
deferred into `tagMatchBuf`, the rest is emitted, and the loop breaks. -/
def procLoopF : Nat → Bool → List Char → List Char → List Char → DemuxState
  | 0, inside, th, co, work => ⟨inside, work, th, co⟩
  | fuel + 1, inside, th, co, work =>
    let tag := if inside then CLOSE_TAG else OPEN_TAG
    match firstIdx work tag with
    | some i =>
      if inside then
        procLoopF fuel false (th ++ work.take i) co (work.drop (i + tag.length))
      else
        procLoopF fuel true th (co ++ work.take i) (work.drop (i + tag.length))
    | none =>
      let p := trailingPartialMatch work tag
      if inside then
        ⟨true, work.drop (work.length - p), th ++ work.take (work.length - p), co⟩
      else
        ⟨false, work.drop (work.length - p), th, co ++ work.take (work.length - p)⟩

/-- The loop at its canonical (always sufficient) fuel. -/
def procLoop (inside : Bool) (th co work : List Char) : DemuxState :=
  procLoopF (work.length + 1) inside th co work

/-- The tag the loop is scanning for in the given mode. -/
def tagOf (inside : Bool) : List Char := if inside then CLOSE_TAG else OPEN_TAG

/-- Emission of a piece of text with the current classification (thinking when
inside a think region, content otherwise). -/
def emitTo (inside : Bool) (th co out : List Char) : List Char × List Char :=
  if inside then (th ++ out, co) else (th, co ++ out)

/-- `processContentText(text)` of `LLMClient.js`: prepend the deferred
`tagMatchBuf` to the chunk and run the loop. -/
def processContentText (st : DemuxState) (text : List Char) : DemuxState :=
  procLoop st.inside st.thinking st.content (st.buf ++ text)

/-- The end-of-stream flush (`chat`, lines 227–235): residual deferred bytes
are appended to the buffer for the current classification.  Returns the final
(thinking, content) pair. -/
def flushPair (st : DemuxState) : List Char × List Char :=
  if st.inside then (st.thinking ++ st.buf, st.content) else (st.thinking, st.content ++ st.buf)

/-- The parser state at the start of a stream. -/
def initDemux : DemuxState := ⟨false, [], [], []⟩

/-- Feeding a sequence of content chunks through `processContentText`. -/
def runChunks (st : DemuxState) (chunks : List (List Char)) : DemuxState :=
  chunks.foldl processContentText st

/-- Modelled from the spec: the reference demultiplexer over the whole content
text, by think regions — outside a region, everything up to the next `<think>`
is content; inside, everything up to the next `</think>` is thinking; an
unterminated region (or trailing partial tag, which is no tag at all) runs to
the end of the stream.  Fueled like the loop; one unit per region boundary
suffices (`refDemuxF_fuel_irrelevant`). -/
def refDemuxF : Nat → Bool → List Char → List Char × List Char
  | 0, _, text => ([], text)
  | fuel + 1, inside, text =>
    if inside then
      match firstIdx text CLOSE_TAG with
      | none => (text, [])
      | some i =>
        let rest := refDemuxF fuel false (text.drop (i + CLOSE_TAG.length))
        (text.take i ++ rest.1, rest.2)
    else
      match firstIdx text OPEN_TAG with
      | none => ([], text)
      | some i =>
        let rest := refDemuxF fuel true (text.drop (i + OPEN_TAG.length))
        (rest.1, text.take i ++ rest.2)

/-- The reference demultiplexer at its canonical fuel. -/
def refDemux (inside : Bool) (text : List Char) : List Char × List Char :=
  refDemuxF (text.length + 1) inside text

/-- Modelled from the spec: the claim's literal reading — the concatenation of
the substrings enclosed in completed `<think>…</think>` tag pairs (an
unmatched trailing `<think>` contributes nothing, having no closing tag). -/
def pairsThinkingF : Nat → List Char → List Char
  | 0, _ => []
  | fuel + 1, text =>
    match firstIdx text OPEN_TAG with
    | none => []
    | some i =>
      let afterOpen := text.drop (i + OPEN_TAG.length)
      match firstIdx afterOpen CLOSE_TAG with
      | none => []
      | some j => afterOpen.take j ++ pairsThinkingF fuel (afterOpen.drop (j + CLOSE_TAG.length))

/-- The pairs reading at its canonical fuel. -/
def pairsThinking (text : List Char) : List Char :=
  pairsThinkingF (text.length + 1) text

/-! ## Claim theorems -/

/-- C1: the claim states the half-move clock is `prev + 1` after every
successfully applied non-pawn non-capture move, including castling.  The code
violates this: `_executeMove` returns early for castling and `_executeCastle`
never touches the clock, so on `boardC1` (clock 5) the legal `O-O` is applied
and the clock is still 5 afterwards, not 6. -/
theorem C1_castling_clock_unchanged :
    (boardC1.applyMove "O-O".toList Color.WHITE).1.isSome = true
    ∧ boardC1.halfMoveClock = 5
    ∧ (boardC1.applyMove "O-O".toList Color.WHITE).2.halfMoveClock = 5
    ∧ (boardC1.applyMove "Kd1".toList Color.WHITE).2.halfMoveClock = 6 := by
  decide

/-- C10: `getPiece` returns `none` on any out-of-range integer coordinate, and
`getLegalMoves` on a square whose `getPiece` is `none` (out-of-range or empty)
returns the empty list. -/
theorem C10_getPiece_total (b : Board) (file rank : Int) :
    ((file < 0 ∨ 7 < file ∨ rank < 0 ∨ 7 < rank) → b.getPiece file rank = none)
    ∧ (b.getPiece file rank = none → b.getLegalMoves file rank = []) := by
  constructor
  · intro h
    unfold Board.getPiece
    rw [if_pos]
    rcases h with h | h | h | h
    · exact Or.inl h
    · exact Or.inr (Or.inl h)
    · exact Or.inr (Or.inr (Or.inl h))
    · exact Or.inr (Or.inr (Or.inr h))
  · intro h
    unfold Board.getLegalMoves
    rw [h]

/-- Witness for C10 at a concrete out-of-range coordinate. -/
theorem C10_getPiece_total_witness :
    initialBoard.getPiece (-1) 5 = none ∧ initialBoard.getLegalMoves (-1) 5 = [] := by
  refine ⟨(C10_getPiece_total initialBoard (-1) 5).1 (Or.inl (by decide)), ?_⟩
  exact (C10_getPiece_total initialBoard (-1) 5).2
    ((C10_getPiece_total initialBoard (-1) 5).1 (Or.inl (by decide)))

/-- C3 counterexample: on `boardC3` the SAN `Nd5` has two geometric knight
candidates and no disambiguation hint, exactly one of which (c3) is check-safe
(the e3-knight is pinned by the e7-rook), and `applyMove` ACCEPTS the move —
the claim says such a SAN is rejected. -/
theorem C3_counterexample :
    (boardC3.filteredCandidates .KNIGHT Color.WHITE ⟨3, 4⟩ false []).length = 2
    ∧ boardC3.checkSafe .KNIGHT Color.WHITE ⟨3, 4⟩ false ⟨2, 2⟩ = true
    ∧ boardC3.checkSafe .KNIGHT Color.WHITE ⟨3, 4⟩ false ⟨4, 2⟩ = false
    ∧ (boardC3.applyMove "Nd5".toList Color.WHITE).1.isSome = true := by
  decide

/-- C3 amended: `_resolveSource` applies the check-safety filter BEFORE the
exactly-one-candidate test: it succeeds with source `s` precisely when the
check-safety filter of the geometric-and-disambiguation candidates leaves
exactly `[s]` — so a SAN with two geometric candidates of which only one is
check-safe is accepted, and a SAN is rejected as ambiguous only when two or
more candidates survive the check-safety filter. -/
theorem C3_ambiguity_after_safety (b : Board) (pt : PieceType) (color : Color)
    (dest : Square) (capture : Bool) (disambig : List Char) (s : Square) :
    b.resolveSource pt color dest capture disambig = some s ↔
      (b.filteredCandidates pt color dest capture disambig).filter
        (b.checkSafe pt color dest capture) = [s] := by
  unfold Board.resolveSource
  rcases (b.filteredCandidates pt color dest capture disambig).filter
      (b.checkSafe pt color dest capture) with _ | ⟨a, _ | ⟨c, t⟩⟩ <;>
    simp

/-- C8 counterexample: on `boardC8` the promotion-less SAN `a8` is accepted and
the rules engine places the PAWN itself on a8 — not a queen as the claim
states (an explicit `=Q` does place a queen). -/
theorem C8_counterexample :
    (boardC8.applyMove "a8".toList Color.WHITE).1.isSome = true
    ∧ (boardC8.applyMove "a8".toList Color.WHITE).2.getPiece 0 7 = some ⟨.PAWN, .WHITE⟩
    ∧ (boardC8.applyMove "a8".toList Color.WHITE).2.getPiece 0 7 ≠ some ⟨.QUEEN, .WHITE⟩
    ∧ (boardC8.applyMove "a8=Q".toList Color.WHITE).2.getPiece 0 7 = some ⟨.QUEEN, .WHITE⟩ := by
  decide

/-- C2 counterexample: with 1000 ms left, a 3000 ms increment and 5000 ms
elapsed, the deducted result `1000 − 5000` is ≤ 0, yet the code does not end
the game — it sets the mover's clock to `max 0 (1000 − 5000) + 3000 = 3000`
and play continues, because the increment is added before the ≤ 0 test. -/
theorem C2_counterexample :
    gameC2.increment > 0
    ∧ gameC2.timeWhite - (5000 - 0) ≤ 0
    ∧ (clockDebit gameC2 Color.WHITE 5000).result = none
    ∧ (clockDebit gameC2 Color.WHITE 5000).timeWhite = 3000 := by
  decide

/-- C2 amended: the clock-debit step sets the mover's clock to
`max 0 (time − elapsed) + increment` BEFORE the zero test; the game ends with
"<opponent> wins on time" exactly when that sum is ≤ 0 (the clock is then
zeroed), and otherwise the new clock value keeps the increment and
`turnStartedAt` is cleared.  Consequently a mover in a positive-increment game
never loses on time at this step, however large the elapsed time. -/
theorem C2_clock_debit (g : ClockGame) (color : Color) (now t0 : Int)
    (hU : g.unlimited = false) (hT : g.turnStartedAt = some t0) :
    (max 0 (moverTime g color - (now - t0)) + g.increment ≤ 0 →
        (clockDebit g color now).result
            = some (colorName (oppositeColor color) ++ " wins on time")
          ∧ moverTime (clockDebit g color now) color = 0)
    ∧ (0 < max 0 (moverTime g color - (now - t0)) + g.increment →
        (clockDebit g color now).result = g.result
          ∧ moverTime (clockDebit g color now) color
              = max 0 (moverTime g color - (now - t0)) + g.increment
          ∧ (clockDebit g color now).turnStartedAt = none)
    ∧ (0 < g.increment → (clockDebit g color now).result = g.result) := by
  cases color with
  | WHITE =>
    have hm : (0 : Int) ≤ max 0 (g.timeWhite - (now - t0)) := le_max_left _ _
    have hdef : clockDebit g Color.WHITE now =
        (if max 0 (g.timeWhite - (now - t0)) + g.increment ≤ 0 then
          { g with timeWhite := 0,
                   result := some (colorName (oppositeColor Color.WHITE) ++ " wins on time") }
        else
          { g with timeWhite := max 0 (g.timeWhite - (now - t0)) + g.increment,
                   turnStartedAt := none }) := by
      simp [clockDebit, hU, hT]
    rw [hdef]
    simp only [moverTime, if_pos rfl]
    by_cases h1 : max 0 (g.timeWhite - (now - t0)) + g.increment ≤ 0
    · rw [if_pos h1]
      exact ⟨fun _ => ⟨rfl, rfl⟩, fun h2 => absurd h1 (not_le.mpr h2),
        fun h2 => absurd h1 (by linarith)⟩
    · rw [if_neg h1]
      exact ⟨fun h2 => absurd h2 h1, fun _ => ⟨rfl, rfl, rfl⟩, fun _ => rfl⟩
  | BLACK =>
    have hm : (0 : Int) ≤ max 0 (g.timeBlack - (now - t0)) := le_max_left _ _
    have hdef : clockDebit g Color.BLACK now =
        (if max 0 (g.timeBlack - (now - t0)) + g.increment ≤ 0 then
          { g with timeBlack := 0,
                   result := some (colorName (oppositeColor Color.BLACK) ++ " wins on time") }
        else
          { g with timeBlack := max 0 (g.timeBlack - (now - t0)) + g.increment,
                   turnStartedAt := none }) := by
      simp [clockDebit, hU, hT]
    rw [hdef]
    simp only [moverTime]
    by_cases h1 : max 0 (g.timeBlack - (now - t0)) + g.increment ≤ 0
    · rw [if_pos h1]
      refine ⟨fun _ => ⟨rfl, by simp⟩, fun h2 => absurd h1 (not_le.mpr h2),
        fun h2 => absurd h1 (by linarith)⟩
    · rw [if_neg h1]
      refine ⟨fun h2 => absurd h2 h1, fun _ => ⟨rfl, by simp, rfl⟩, fun _ => rfl⟩

/-- Witness for C2's amended theorem on the concrete `gameC2` state. -/
theorem C2_clock_debit_witness :
    (clockDebit gameC2 Color.WHITE 5000).result = gameC2.result
    ∧ moverTime (clockDebit gameC2 Color.WHITE 5000) Color.WHITE = 3000 := by
  have h := (C2_clock_debit gameC2 Color.WHITE 5000 0 rfl rfl).2.1 (by decide)
  exact ⟨h.1, h.2.1.trans (by decide)⟩

/-- C4: whenever `applyMove` fails (empty/unparseable SAN, zero or multiple
resolved candidates, or a move that would leave the mover in check), the Board
it returns is exactly the input Board — grid, castling rights, en-passant
target, half-move clock and both capture lists included. -/
theorem C4_failure_no_mutation (b : Board) (n : List Char) (color : Color)
    (h : (b.applyMove n color).1 = none) :
    (b.applyMove n color).2 = b
    ∧ (b.applyMove n color).2.squares = b.squares
    ∧ (b.applyMove n color).2.whiteCanCastleKingside = b.whiteCanCastleKingside
    ∧ (b.applyMove n color).2.whiteCanCastleQueenside = b.whiteCanCastleQueenside
    ∧ (b.applyMove n color).2.blackCanCastleKingside = b.blackCanCastleKingside
    ∧ (b.applyMove n color).2.blackCanCastleQueenside = b.blackCanCastleQueenside
    ∧ (b.applyMove n color).2.enPassantTarget = b.enPassantTarget
    ∧ (b.applyMove n color).2.halfMoveClock = b.halfMoveClock
    ∧ (b.applyMove n color).2.capturedByWhite = b.capturedByWhite
    ∧ (b.applyMove n color).2.capturedByBlack = b.capturedByBlack := by
  have hmain : (b.applyMove n color).2 = b := by
    unfold Board.applyMove at h ⊢
    by_cases h0 : n = []
    · simp [h0]
    · rw [if_neg h0] at h ⊢
      cases hp : b.parseAndResolve
          ((trimChars n).filter fun c => c != '+' && c != '#' && c != '!' && c != '?')
          color with
      | none => rfl
      | some move =>
        rw [hp] at h
        dsimp only at h ⊢
        by_cases hck : (b.executeMove move).isInCheck color = true
        · rw [if_pos hck]
        · rw [if_neg hck] at h
          simp at h
  exact ⟨hmain, by rw [hmain], by rw [hmain], by rw [hmain], by rw [hmain],
    by rw [hmain], by rw [hmain], by rw [hmain], by rw [hmain], by rw [hmain]⟩

/-- Witness for C4 at a concrete illegal SAN on the initial position. -/
theorem C4_failure_no_mutation_witness :
    (initialBoard.applyMove "Ke3".toList Color.WHITE).1 = none
    ∧ (initialBoard.applyMove "Ke3".toList Color.WHITE).2 = initialBoard :=
  ⟨by decide,
    (C4_failure_no_mutation initialBoard ("Ke3".toList) Color.WHITE (by decide)).1⟩

/-- C5: if every one of the attempts fails — the chat call threw, or the
returned SAN is rejected by the Board — the turn ends with exactly
"<opponent> wins by forfeit (<color> failed to make a legal move)". -/
theorem C5_forfeit_after_retries (b : Board) (color : Color) (outcomes : List Attempt)
    (h : ∀ san, Attempt.respond san ∈ outcomes → (b.applyMove san color).1 = none) :
    llmTurnResult b color outcomes
      = some (colorName (oppositeColor color) ++ " wins by forfeit ("
          ++ colorName color ++ " failed to make a legal move)") := by
  have hrun : runAttempts b color outcomes = none := by
    induction outcomes with
    | nil => rfl
    | cons a rest ih =>
      cases a with
      | threw => exact ih fun san hs => h san (List.mem_cons_of_mem _ hs)
      | respond san =>
        have h1 := h san (List.mem_cons_self _ _)
        have hpair : b.applyMove san color = (none, (b.applyMove san color).2) := by
          rw [← h1]
        unfold runAttempts
        rw [hpair]
        exact ih fun san hs => h san (List.mem_cons_of_mem _ hs)
  unfold llmTurnResult
  rw [hrun]
  rfl

/-- Witness for C5: two illegal attempts (`maxRetries = 2`, the LLM answers
`Z9` then its call throws) on the initial position produce the spec's literal
forfeit string. -/
theorem C5_forfeit_after_retries_witness :
    llmTurnResult initialBoard Color.WHITE [.respond "Z9".toList, .threw]
      = some "Black wins by forfeit (White failed to make a legal move)" := by
  have h := C5_forfeit_after_retries initialBoard Color.WHITE
    [.respond "Z9".toList, .threw] ?_
  · exact h.trans (by rfl)
  · intro san hs
    rcases List.mem_cons.mp hs with h1 | h2
    · injection h1 with hsan
      subst hsan
      decide
    · rcases List.mem_cons.mp h2 with h3 | h4
      · exact absurd h3 (by simp)
      · exact absurd h4 (by simp)

/-- On any inputs, the acquisition time of `_rateLimit` is `max now next`:
the caller proceeds immediately when `now ≥ next` and at `next` otherwise. -/
theorem rateLimit_acq_eq_max (next now : Int) : (rateLimitStep next now).2 = max now next := by
  unfold rateLimitStep
  dsimp only
  rcases le_total now next with h | h
  · rw [max_eq_right (by linarith : (0 : Int) ≤ next - now), max_eq_right h]
    ring
  · rw [max_eq_left (by linarith : next - now ≤ (0 : Int)), max_eq_left h]
    ring

/-- Successive `_rateLimit` acquisitions are spaced at least `RATE_LIMIT_MS`
apart, whatever the call times are. -/
theorem acqTimes_chain (nows : List Int) :
    ∀ init, List.Chain' (fun a c => a + RATE_LIMIT_MS ≤ c) (acqTimes init nows) := by
  induction nows with
  | nil => intro init; simp [acqTimes]
  | cons now rest ih =>
    intro init
    cases rest with
    | nil => simp [acqTimes]
    | cons now2 rest2 =>
      have hstep : acqTimes init (now :: now2 :: rest2)
          = (rateLimitStep init now).2 ::
            acqTimes (rateLimitStep init now).1 (now2 :: rest2) := rfl
      rw [hstep]
      have htail : acqTimes (rateLimitStep init now).1 (now2 :: rest2)
          = (rateLimitStep (rateLimitStep init now).1 now2).2 ::
            acqTimes (rateLimitStep (rateLimitStep init now).1 now2).1 rest2 := rfl
      rw [htail]
      refine List.Chain'.cons ?_ ?_
      · rw [rateLimit_acq_eq_max, rateLimit_acq_eq_max]
        have h1 : (rateLimitStep init now).1 = max now init + RATE_LIMIT_MS := rfl
        have h2 : (rateLimitStep init now).1 ≤ max now2 (rateLimitStep init now).1 :=
          le_max_right _ _
        rw [h1] at h2
        calc max now init + RATE_LIMIT_MS ≤ max now2 (max now init + RATE_LIMIT_MS) := h2
          _ = _ := by rw [h1]
      · rw [← htail]
        exact ih (rateLimitStep init now).1

/-- C7: each acquisition advances the process-wide next-allowed-at to
`max(now, old) + 3000 ms`; a caller arriving before the old next-allowed-at
acquires exactly at it (and one arriving after acquires immediately at `now`);
consequently every sequence of acquisitions is spaced at least 3000 ms apart. -/
theorem C7_rate_limiter (next now init : Int) (nows : List Int) :
    ((rateLimitStep next now).1 = max now next + RATE_LIMIT_MS)
    ∧ (now < next → (rateLimitStep next now).2 = next)
    ∧ (next ≤ now → (rateLimitStep next now).2 = now)
    ∧ List.Chain' (fun a c => a + RATE_LIMIT_MS ≤ c) (acqTimes init nows) := by
  refine ⟨rfl, fun h => ?_, fun h => ?_, acqTimes_chain nows init⟩
  · rw [rateLimit_acq_eq_max, max_eq_right (le_of_lt h)]
  · rw [rateLimit_acq_eq_max, max_eq_left h]

/-- Witness for C7 on concrete times. -/
theorem C7_rate_limiter_witness :
    (rateLimitStep 5000 2000).2 = 5000
    ∧ (rateLimitStep 2000 5000).2 = 5000
    ∧ List.Chain' (fun a c => a + RATE_LIMIT_MS ≤ c) (acqTimes 0 [0, 100, 9000]) :=
  ⟨(C7_rate_limiter 5000 2000 0 []).2.1 (by decide),
   (C7_rate_limiter 2000 5000 0 []).2.2.1 (by decide),
   (C7_rate_limiter 0 0 0 [0, 100, 9000]).2.2.2⟩

/-- A string append whose left operand has nonempty data is nonempty. -/
theorem append_data_ne_nil (a b : String) (h : a.data ≠ []) : (a ++ b).data ≠ [] := by
  rw [String.data_append]
  intro hab
  exact h (List.append_eq_nil.mp hab).1

/-- The cooldown error message is never the empty string. -/
theorem cooldownError_ne_empty (remainingMs : Int) : cooldownError remainingMs ≠ "" := by
  intro he
  have hd : (cooldownError remainingMs).data = [] := by rw [he]
  unfold cooldownError at hd
  exact append_data_ne_nil _ _
    (append_data_ne_nil _ _
      (append_data_ne_nil _ _
        (append_data_ne_nil _ _ (by decide)))) hd

/-- C9: (a) a successful non-bypassed shared-credential start records `now` in
the rate-limit map; (b) a later shared-credential start on the same token,
within twenty minutes of the recorded timestamp and without bypass, is rejected
with a 429 payload carrying a non-empty error message, the positive
`remainingMs`, and `bypass: false`; (c) a start with the configured bypass
password is never 429-rejected — the cooldown check is waived, whatever the
recorded timestamp and however recently it was set; and (d) such a bypassed
start, when it succeeds, leaves the recorded timestamp unchanged. -/
theorem C9_shared_cooldown (env : ServerEnv) (last : Option Int) (req : StartRequest)
    (now t : Int) :
    (∀ rec bp, sharedCred req → ¬bypassOk env req →
        gameStart env false last req now = .started rec bp → rec = some now)
    ∧ (last = some t → now - t < INDEX_RATE_LIMIT_MS → sharedCred req →
        ¬bypassOk env req →
        gameStart env false last req now
          = .rateLimited (cooldownError (INDEX_RATE_LIMIT_MS - (now - t)))
              (INDEX_RATE_LIMIT_MS - (now - t)) false
        ∧ 0 < INDEX_RATE_LIMIT_MS - (now - t)
        ∧ cooldownError (INDEX_RATE_LIMIT_MS - (now - t)) ≠ "")
    ∧ (bypassOk env req → (gameStart env false last req now).is429 = false)
    ∧ (∀ rec bp, bypassOk env req →
        gameStart env false last req now = .started rec bp → rec = last) := by
  refine ⟨?_, ?_, ?_, ?_⟩
  · intro rec bp hs hb heq
    unfold gameStart at heq
    dsimp only at heq
    split at heq
    · exact StartResponse.noConfusion heq
    · split at heq
      · exact StartResponse.noConfusion heq
      · split at heq <;> split at heq <;>
          first
          | exact StartResponse.noConfusion heq
          | (injection heq with h1 h2; rw [← h1, if_pos ⟨hs, hb⟩])
  · intro hlast h2 hs hb
    subst hlast
    have hG : gameStart env false (some t) req now
        = .rateLimited (cooldownError (INDEX_RATE_LIMIT_MS - (now - t)))
            (INDEX_RATE_LIMIT_MS - (now - t)) false := by
      unfold gameStart
      rw [if_neg Bool.false_ne_true]
      dsimp only
      rw [if_pos ⟨hs, hb, decide_eq_true h2⟩]
      rfl
    exact ⟨hG, by linarith, cooldownError_ne_empty _⟩
  · intro hbok
    unfold gameStart
    rw [if_neg Bool.false_ne_true]
    dsimp only
    rw [if_neg fun hc => hc.2.1 hbok]
    split <;> split <;> rfl
  · intro rec bp hbok heq
    unfold gameStart at heq
    dsimp only at heq
    split at heq
    · exact StartResponse.noConfusion heq
    · split at heq
      · exact StartResponse.noConfusion heq
      · split at heq <;> split at heq <;>
          first
          | exact StartResponse.noConfusion heq
          | (injection heq with h1 h2; rw [← h1, if_neg fun hc => hc.2 hbok])

/-- Witness for C9 on concrete data: a shared-credential request 100 ms after
the recorded start is 429-rejected; the same request carrying the bypass
password `"pw"` inside the very same window is not 429-rejected — it starts,
with `bypass: true`, leaving the recorded timestamp at 100; and a fresh
non-bypassed start records `now`. -/
theorem C9_shared_cooldown_witness :
    gameStart envC9 false (some 100) reqC9 200
      = .rateLimited (cooldownError 1199900) 1199900 false
    ∧ (0 : Int) < 1199900
    ∧ (gameStart envC9 false (some 100) ⟨"", "", "", "", "pw", none⟩ 200).is429 = false
    ∧ gameStart envC9 false (some 100) ⟨"", "", "", "", "pw", none⟩ 200
        = .started (some 100) true
    ∧ gameStart envC9 false none reqC9 200 = .started (some 200) false := by
  have h1 := (C9_shared_cooldown envC9 (some 100) reqC9 200 100).2.1 rfl (by decide)
    (by decide) (by decide)
  have h2 := (C9_shared_cooldown envC9 (some 100) ⟨"", "", "", "", "pw", none⟩ 200 100).2.2.1
    (by decide)
  exact ⟨h1.1, h1.2.1, h2, by decide, by decide⟩

set_option maxHeartbeats 1000000 in
/-- Castling records carry no promotion. -/
theorem resolveCastle_promotion_none (b : Board) (ks : Bool) (color : Color)
    (m : MoveRec) (h : b.resolveCastle ks color = some m) : m.promotion = none := by
  unfold Board.resolveCastle at h
  dsimp only at h
  repeat' split at h
  all_goals
    first
    | exact Option.noConfusion h
    | (injection h with h'; subst h'; rfl)

set_option maxHeartbeats 1000000 in
/-- A SAN without an `=` parses to a move without a promotion. -/
theorem parse_without_eq_promotion (b : Board) (san : List Char) (color : Color)
    (m : MoveRec) (hne : '=' ∉ san) (hp : b.parseAndResolve san color = some m) :
    m.promotion = none := by
  have hfind : ∀ rest0 : List Char, '=' ∉ rest0 →
      rest0.findIdx? (· == '=') = none := by
    intro rest0 h0
    rw [List.findIdx?_eq_none_iff]
    intro x hx
    rw [beq_eq_false_iff_ne]
    exact fun hxe => h0 (hxe ▸ hx)
  unfold Board.parseAndResolve at hp
  split at hp
  · exact resolveCastle_promotion_none _ _ _ _ hp
  · split at hp
    · exact resolveCastle_promotion_none _ _ _ _ hp
    · dsimp only at hp
      cases san with
      | nil =>
        dsimp only at hp
        repeat' split at hp
        all_goals first
          | exact Option.noConfusion hp
          | (injection hp with h'; subst h'; rfl)
      | cons c cs =>
        dsimp only at hp
        by_cases hg : 'A' ≤ c ∧ c ≤ 'Z' ∧ c ∈ ['K', 'Q', 'R', 'B', 'N']
        · rw [if_pos hg] at hp
          dsimp only at hp
          rw [hfind cs fun hm => hne (List.mem_cons_of_mem _ hm)] at hp
          dsimp only at hp
          repeat' split at hp
          all_goals first
            | exact Option.noConfusion hp
            | (injection hp with h'; subst h'; rfl)
        · rw [if_neg hg] at hp
          dsimp only at hp
          rw [hfind (c :: cs) hne] at hp
          dsimp only at hp
          repeat' split at hp
          all_goals first
            | exact Option.noConfusion hp
            | (injection hp with h'; subst h'; rfl)

/-- Well-formedness transfers along equal grids. -/
theorem wf_of_squares_eq {b b' : Board} (h : b'.squares = b.squares)
    (hwf : b.wellFormed) : b'.wellFormed := by
  unfold Board.wellFormed at *
  rw [h]
  exact hwf

/-- `setPiece` keeps the grid 8×8. -/
theorem setPiece_wellFormed (b : Board) (f r : Int) (p : Option Piece)
    (hwf : b.wellFormed) : (b.setPiece f r p).wellFormed := by
  unfold Board.setPiece
  split
  · rename_i hcond
    unfold Board.wellFormed gridWellFormed at hwf ⊢
    refine ⟨by simpa using hwf.1, ?_⟩
    intro row hrow
    rcases List.mem_or_eq_of_mem_set hrow with h1 | h2
    · exact hwf.2 row h1
    · subst h2
      rw [List.length_set]
      have hflen : f.toNat < b.squares.length := by rw [hwf.1]; omega
      have hmem : b.squares.getD f.toNat [] ∈ b.squares := by
        rw [List.getD_eq_getElem _ _ hflen]
        exact List.getElem_mem hflen
      exact hwf.2 _ hmem
  · exact hwf

/-- `_updateCastlingRights` never touches the grid. -/
theorem updateCastlingRights_squares (b : Board) (m : MoveRec) (c : Color) :
    (b.updateCastlingRights m c).squares = b.squares := by
  unfold Board.updateCastlingRights
  dsimp only
  simp only [apply_ite Board.squares, ite_self]

/-- The pre-relocation bookkeeping keeps the grid 8×8. -/
theorem execBookkeeping_wellFormed (b : Board) (m : MoveRec) (p : Piece)
    (hwf : b.wellFormed) : (b.execBookkeeping m p).wellFormed := by
  unfold Board.execBookkeeping
  refine wf_of_squares_eq (updateCastlingRights_squares _ _ _) ?_
  unfold Board.wellFormed
  dsimp only
  simp only [apply_ite Board.squares, ite_self]
  split
  · refine setPiece_wellFormed _ _ _ _ ?_
    split
    · split_ifs <;> exact hwf
    · exact hwf
  · split
    · split_ifs <;> exact hwf
    · exact hwf

/-- Reading back the square just written by `setPiece` (on an 8×8 grid and
in-range coordinates). -/
theorem getPiece_setPiece_self (b : Board) (f r : Int) (p : Option Piece)
    (hwf : b.wellFormed) (hf0 : 0 ≤ f) (hf7 : f ≤ 7) (hr0 : 0 ≤ r) (hr7 : r ≤ 7) :
    (b.setPiece f r p).getPiece f r = p := by
  unfold Board.setPiece Board.getPiece
  rw [if_neg (show ¬(f < 0 ∨ f > 7 ∨ r < 0 ∨ r > 7) by omega)]
  rw [apply_ite Board.squares]
  dsimp only
  rw [if_pos ⟨hf0, hf7, hr0, hr7⟩]
  have hflen : f.toNat < b.squares.length := by rw [hwf.1]; omega
  have hmem : b.squares.getD f.toNat [] ∈ b.squares := by
    rw [List.getD_eq_getElem _ _ hflen]
    exact List.getElem_mem hflen
  have hrlen : r.toNat < (b.squares.getD f.toNat []).length := by
    rw [hwf.2 _ hmem]; omega
  have h1 : (b.squares.set f.toNat ((b.squares.getD f.toNat []).set r.toNat p)).getD
      f.toNat [] = (b.squares.getD f.toNat []).set r.toNat p := by
    rw [List.getD_eq_getElem _ _ (by simpa using hflen)]
    exact List.getElem_set_self (by simpa using hflen)
  rw [h1]
  rw [List.getD_eq_getElem _ _ (by simpa using hrlen)]
  exact List.getElem_set_self (by simpa using hrlen)

/-- A promotion-less non-castling move relocates the moved piece itself to the
destination square. -/
theorem exec_places_moved_piece (b : Board) (move : MoveRec) (p : Piece)
    (hwf : b.wellFormed) (hks : move.castleKS = false) (hqs : move.castleQS = false)
    (hpr : move.promotion = none)
    (hsrc : b.getPiece move.fromSq.file move.fromSq.rank = some p)
    (hf0 : 0 ≤ move.toSq.file) (hf7 : move.toSq.file ≤ 7)
    (hr0 : 0 ≤ move.toSq.rank) (hr7 : move.toSq.rank ≤ 7) :
    (b.executeMove move).getPiece move.toSq.file move.toSq.rank = some p := by
  unfold Board.executeMove
  rw [if_neg (by simp [hks]), if_neg (by simp [hqs]), hsrc]
  dsimp only
  rw [hpr]
  exact getPiece_setPiece_self _ _ _ _
    (setPiece_wellFormed _ _ _ _ (execBookkeeping_wellFormed _ _ _ hwf))
    hf0 hf7 hr0 hr7

/-- C8 amended: a SAN without `=` parses to a promotion-less move, and
executing a promotion-less non-castling move places the moved piece itself
(not a queen) on the destination square; a promotion piece appears only with
an explicit `=X` suffix. -/
theorem C8_no_default_promotion :
    (∀ (b : Board) (san : List Char) (color : Color) (m : MoveRec), '=' ∉ san →
        b.parseAndResolve san color = some m → m.promotion = none)
    ∧ (∀ (b : Board) (move : MoveRec) (p : Piece), b.wellFormed →
        move.castleKS = false → move.castleQS = false → move.promotion = none →
        b.getPiece move.fromSq.file move.fromSq.rank = some p →
        0 ≤ move.toSq.file → move.toSq.file ≤ 7 →
        0 ≤ move.toSq.rank → move.toSq.rank ≤ 7 →
        (b.executeMove move).getPiece move.toSq.file move.toSq.rank = some p) :=
  ⟨parse_without_eq_promotion, exec_places_moved_piece⟩

/-- Witness for C8's amended theorem: the concrete `a8` move on `boardC8`. -/
theorem C8_no_default_promotion_witness :
    moveC8.promotion = none
    ∧ (boardC8.executeMove moveC8).getPiece 0 7 = some ⟨.PAWN, .WHITE⟩ := by
  refine ⟨?_, ?_⟩
  · exact C8_no_default_promotion.1 boardC8 "a8".toList Color.WHITE moveC8
      (by decide) (by decide)
  · exact C8_no_default_promotion.2 boardC8 moveC8 ⟨.PAWN, .WHITE⟩ (by decide)
      rfl rfl rfl (by decide) (by decide) (by decide) (by decide) (by decide)

/-! ### firstIdx characterization -/

theorem firstIdx_some_prefix {l tag : List Char} {i : Nat}
    (h : firstIdx l tag = some i) : tag <+: l.drop i := by
  induction l generalizing i with
  | nil =>
    unfold firstIdx at h
    split at h
    · rename_i hp
      injection h with h'
      subst h'
      exact List.isPrefixOf_iff_prefix.mp hp
    · exact Option.noConfusion h
  | cons c rest ih =>
    unfold firstIdx at h
    split at h
    · rename_i hp
      injection h with h'
      subst h'
      exact List.isPrefixOf_iff_prefix.mp hp
    · dsimp only at h
      cases hr : firstIdx rest tag with
      | none => rw [hr] at h; exact Option.noConfusion h
      | some j =>
        rw [hr] at h
        injection h with h'
        subst h'
        exact ih hr

theorem firstIdx_some_min {l tag : List Char} {i : Nat}
    (h : firstIdx l tag = some i) : ∀ k, k < i → ¬ tag <+: l.drop k := by
  induction l generalizing i with
  | nil =>
    unfold firstIdx at h
    split at h
    · injection h with h'
      subst h'
      intro k hk
      exact absurd hk (Nat.not_lt_zero k)
    · exact Option.noConfusion h
  | cons c rest ih =>
    intro k hk
    unfold firstIdx at h
    split at h
    · injection h with h'
      subst h'
      exact absurd hk (Nat.not_lt_zero k)
    · rename_i hp
      dsimp only at h
      cases hr : firstIdx rest tag with
      | none => rw [hr] at h; exact Option.noConfusion h
      | some j =>
        rw [hr] at h
        injection h with h'
        replace h' : j + 1 = i := h'
        subst h'
        cases k with
        | zero => exact fun hc => hp (List.isPrefixOf_iff_prefix.mpr hc)
        | succ k' => exact ih hr k' (by omega)

theorem firstIdx_none_not_prefix {l tag : List Char}
    (h : firstIdx l tag = none) : ∀ k, ¬ tag <+: l.drop k := by
  induction l with
  | nil =>
    unfold firstIdx at h
    split at h
    · exact Option.noConfusion h
    · rename_i hp
      intro k hc
      rw [List.drop_nil] at hc
      exact hp (List.isPrefixOf_iff_prefix.mpr (by simpa using hc))
  | cons c rest ih =>
    unfold firstIdx at h
    split at h
    · exact Option.noConfusion h
    · rename_i hp
      intro k hc
      dsimp only at h
      cases hr : firstIdx rest tag with
      | some j => rw [hr] at h; exact Option.noConfusion h
      | none =>
        cases k with
        | zero => exact hp (List.isPrefixOf_iff_prefix.mpr hc)
        | succ k' => exact ih hr k' hc

theorem firstIdx_none_of_forall {l tag : List Char}
    (h : ∀ k, ¬ tag <+: l.drop k) : firstIdx l tag = none := by
  induction l with
  | nil =>
    unfold firstIdx
    rw [if_neg (show ¬(tag.isPrefixOf [] = true) from
      fun hp => h 0 (List.isPrefixOf_iff_prefix.mp hp))]
  | cons c rest ih =>
    unfold firstIdx
    rw [if_neg (show ¬(tag.isPrefixOf (c :: rest) = true) from
      fun hp => h 0 (List.isPrefixOf_iff_prefix.mp hp))]
    dsimp only
    rw [ih fun k hc => h (k + 1) hc]
    rfl

theorem firstIdx_some_of {l tag : List Char} {i : Nat} (hocc : tag <+: l.drop i)
    (hmin : ∀ k, k < i → ¬ tag <+: l.drop k) : firstIdx l tag = some i := by
  induction l generalizing i with
  | nil =>
    cases i with
    | zero =>
      unfold firstIdx
      rw [if_pos (show tag.isPrefixOf [] = true from
        List.isPrefixOf_iff_prefix.mpr (by simpa using hocc))]
    | succ i' =>
      exact absurd (by simpa using hocc) (by simpa using hmin 0 (Nat.succ_pos i'))
  | cons c rest ih =>
    cases i with
    | zero =>
      unfold firstIdx
      rw [if_pos (show tag.isPrefixOf (c :: rest) = true from
        List.isPrefixOf_iff_prefix.mpr (by simpa using hocc))]
    | succ i' =>
      unfold firstIdx
      rw [if_neg (show ¬(tag.isPrefixOf (c :: rest) = true) from
        fun hp => hmin 0 (Nat.succ_pos i') (List.isPrefixOf_iff_prefix.mp hp))]
      dsimp only
      rw [ih hocc fun k hk => hmin (k + 1) (by omega)]
      rfl

theorem firstIdx_some_bound {l tag : List Char} {i : Nat}
    (h : firstIdx l tag = some i) (htag : tag ≠ []) : i + tag.length ≤ l.length := by
  have hp := firstIdx_some_prefix h
  have h1 : tag.length ≤ l.length - i := by
    have := hp.length_le
    simpa using this
  have h2 : 0 < tag.length := List.length_pos.mpr htag
  omega

/-! ### trailingPartialMatch characterization -/

theorem tpmGo_le (text tag : List Char) : ∀ k, tpmGo text tag k ≤ k := by
  intro k
  induction k with
  | zero => exact Nat.le_refl 0
  | succ k' ih =>
    unfold tpmGo
    split
    · exact Nat.le_refl _
    · exact Nat.le_trans ih (Nat.le_succ k')

theorem tpmGo_suffix (text tag : List Char) (k : Nat) :
    tag.take (tpmGo text tag k) <:+ text := by
  induction k with
  | zero => exact List.nil_suffix
  | succ k' ih =>
    unfold tpmGo
    split
    · rename_i hs
      exact List.isSuffixOf_iff_suffix.mp hs
    · exact ih

theorem tpmGo_max (text tag : List Char) :
    ∀ k m, m ≤ k → tag.take m <:+ text → m ≤ tpmGo text tag k := by
  intro k
  induction k with
  | zero =>
    intro m hm _
    unfold tpmGo
    omega
  | succ k' ih =>
    intro m hm hs
    unfold tpmGo
    split
    · exact hm
    · rename_i hns
      rcases Nat.lt_or_ge m (k' + 1) with h1 | h1
      · exact ih m (by omega) hs
      · have : m = k' + 1 := by omega
        subst this
        exact absurd (List.isSuffixOf_iff_suffix.mpr hs) hns

theorem tpm_le_text (text tag : List Char) :
    trailingPartialMatch text tag ≤ text.length :=
  Nat.le_trans (tpmGo_le _ _ _) (Nat.min_le_left _ _)

theorem tpm_le_tag (text tag : List Char) :
    trailingPartialMatch text tag ≤ tag.length - 1 :=
  Nat.le_trans (tpmGo_le _ _ _) (Nat.min_le_right _ _)

theorem tpm_suffix (text tag : List Char) :
    tag.take (trailingPartialMatch text tag) <:+ text :=
  tpmGo_suffix _ _ _

theorem tpm_max (text tag : List Char) {m : Nat} (h1 : m ≤ text.length)
    (h2 : m ≤ tag.length - 1) (hs : tag.take m <:+ text) :
    m ≤ trailingPartialMatch text tag :=
  tpmGo_max _ _ _ m (Nat.le_min.mpr ⟨h1, h2⟩) hs

/-! ### prefix/suffix helper lemmas -/

theorem prefix_of_append_of_length_le {t x y : List Char} (h : t <+: x ++ y)
    (hl : t.length ≤ x.length) : t <+: x := by
  have h1 : t = (x ++ y).take t.length := List.prefix_iff_eq_take.mp h
  rw [List.take_append_eq_append_take, Nat.sub_eq_zero_of_le hl, List.take_zero,
    List.append_nil] at h1
  rw [h1]
  exact List.take_prefix _ _

theorem suffix_of_suffix_length_le {a z c : List Char} (ha : a <:+ c) (hz : z <:+ c)
    (hl : a.length ≤ z.length) : a <:+ z := by
  obtain ⟨e, he⟩ := ha
  obtain ⟨f, hf⟩ := hz
  have h1 : a = c.drop e.length := by rw [← he]; simp
  have h2 : z = c.drop f.length := by rw [← hf]; simp
  have l1 : e.length + a.length = c.length := by rw [← he]; simp
  have l2 : f.length + z.length = c.length := by rw [← hf]; simp
  have h3 : c.drop e.length = (c.drop f.length).drop (e.length - f.length) := by
    rw [List.drop_drop]
    congr 1
    omega
  rw [h1, h2, h3]
  exact List.drop_suffix _ _

theorem take_suffix_of_suffix_append {tag x v : List Char} {m : Nat}
    (h : tag.take m <:+ x ++ v) (hm : v.length ≤ m) (hmt : m ≤ tag.length) :
    tag.take (m - v.length) <:+ x := by
  obtain ⟨e, he⟩ := h
  have hsplit : tag.take m
      = (tag.take m).take (m - v.length) ++ (tag.take m).drop (m - v.length) :=
    (List.take_append_drop _ _).symm
  rw [List.take_take, Nat.min_eq_left (by omega : m - v.length ≤ m)] at hsplit
  rw [hsplit, ← List.append_assoc] at he
  have hlen : ((tag.take m).drop (m - v.length)).length = v.length := by
    rw [List.length_drop, List.length_take, Nat.min_eq_left hmt]
    omega
  exact ⟨e, (List.append_inj' he hlen).1⟩

/-! ### appending more input: how firstIdx and trailingPartialMatch shift -/

theorem firstIdx_append_some {work v tag : List Char} {i : Nat} (htag : tag ≠ [])
    (h : firstIdx work tag = some i) : firstIdx (work ++ v) tag = some i := by
  have hocc := firstIdx_some_prefix h
  have hbound := firstIdx_some_bound h htag
  have htl : 0 < tag.length := List.length_pos.mpr htag
  apply firstIdx_some_of
  · rw [List.drop_append_eq_append_drop, Nat.sub_eq_zero_of_le (by omega), List.drop_zero]
    exact hocc.trans (List.prefix_append _ _)
  · intro k hk hc
    rw [List.drop_append_eq_append_drop, Nat.sub_eq_zero_of_le (by omega),
      List.drop_zero] at hc
    have hcw : tag <+: work.drop k :=
      prefix_of_append_of_length_le hc (by rw [List.length_drop]; omega)
    exact firstIdx_some_min h k hk hcw

theorem drop_append_shift {work v : List Char} {W j : Nat} (hW : W ≤ work.length)
    (hj : W ≤ j) : (work ++ v).drop j = (work.drop W ++ v).drop (j - W) := by
  have h1 : work.drop W ++ v = (work ++ v).drop W := by
    rw [List.drop_append_eq_append_drop, Nat.sub_eq_zero_of_le hW, List.drop_zero]
  rw [h1, List.drop_drop]
  congr 1
  omega

theorem occ_ge_of_firstIdx_none {work v tag : List Char} {j : Nat}
    (hn : firstIdx work tag = none) (hj : tag <+: (work ++ v).drop j) :
    work.length - trailingPartialMatch work tag ≤ j := by
  by_cases hjw : work.length ≤ j
  · omega
  · push_neg at hjw
    by_cases hfull : j + tag.length ≤ work.length
    · exfalso
      rw [List.drop_append_eq_append_drop, Nat.sub_eq_zero_of_le (by omega),
        List.drop_zero] at hj
      have hc : tag <+: work.drop j :=
        prefix_of_append_of_length_le hj (by rw [List.length_drop]; omega)
      exact firstIdx_none_not_prefix hn j hc
    · push_neg at hfull
      have hdropappend : (work ++ v).drop j = work.drop j ++ v := by
        rw [List.drop_append_eq_append_drop, Nat.sub_eq_zero_of_le (by omega),
          List.drop_zero]
      rw [hdropappend] at hj
      have heq : tag.take (work.length - j) = work.drop j := by
        obtain ⟨t2, ht2⟩ := hj
        have h2 := congrArg (List.take (work.length - j)) ht2.symm
        rw [List.take_append_eq_append_take, List.take_append_eq_append_take,
          List.take_all_of_le (show (work.drop j).length ≤ work.length - j by
            rw [List.length_drop]),
          Nat.sub_eq_zero_of_le (show work.length - j ≤ tag.length by omega),
          List.take_zero, List.append_nil,
          show work.length - j - (work.drop j).length = 0 by
            rw [List.length_drop]; omega,
          List.take_zero, List.append_nil] at h2
        exact h2.symm
      have hsuf : tag.take (work.length - j) <:+ work := by
        rw [heq]
        exact List.drop_suffix _ _
      have hle := tpm_max work tag (by omega) (by omega) hsuf
      omega

theorem firstIdx_append_of_none_some {work v tag : List Char} {j : Nat}
    (hn : firstIdx work tag = none) (h : firstIdx (work ++ v) tag = some j) :
    work.length - trailingPartialMatch work tag ≤ j ∧
    firstIdx (work.drop (work.length - trailingPartialMatch work tag) ++ v) tag
      = some (j - (work.length - trailingPartialMatch work tag)) := by
  have hocc := firstIdx_some_prefix h
  have hWj := occ_ge_of_firstIdx_none hn hocc
  have hW : work.length - trailingPartialMatch work tag ≤ work.length := by omega
  refine ⟨hWj, firstIdx_some_of ?_ ?_⟩
  · rw [← drop_append_shift hW hWj]
    exact hocc
  · intro k hk hc
    have h2 : tag <+: (work ++ v).drop
        (k + (work.length - trailingPartialMatch work tag)) := by
      rw [drop_append_shift hW (by omega)]
      simpa [Nat.add_sub_cancel] using hc
    exact firstIdx_some_min h _ (by omega) h2

theorem firstIdx_append_of_none_none {work v tag : List Char}
    (hn : firstIdx work tag = none) (h : firstIdx (work ++ v) tag = none) :
    firstIdx (work.drop (work.length - trailingPartialMatch work tag) ++ v) tag
      = none := by
  have hW : work.length - trailingPartialMatch work tag ≤ work.length := by omega
  apply firstIdx_none_of_forall
  intro k hc
  have h2 : tag <+: (work ++ v).drop
      (k + (work.length - trailingPartialMatch work tag)) := by
    rw [drop_append_shift hW (by omega)]
    simpa [Nat.add_sub_cancel] using hc
  exact firstIdx_none_not_prefix h _ h2

theorem tpm_append_of_none {work v tag : List Char} (htag : tag ≠ [])
    (hn : firstIdx work tag = none) :
    trailingPartialMatch (work ++ v) tag
      = trailingPartialMatch
          (work.drop (work.length - trailingPartialMatch work tag) ++ v) tag := by
  have htl : 0 < tag.length := List.length_pos.mpr htag
  have hpw : trailingPartialMatch work tag ≤ work.length := tpm_le_text work tag
  have hsufflen : (work.drop (work.length - trailingPartialMatch work tag) ++ v).length
      = trailingPartialMatch work tag + v.length := by
    rw [List.length_append, List.length_drop]
    omega
  have hsuffix : work.drop (work.length - trailingPartialMatch work tag) ++ v
      <:+ work ++ v := by
    have h1 : work.drop (work.length - trailingPartialMatch work tag) ++ v
        = (work ++ v).drop (work.length - trailingPartialMatch work tag) := by
      rw [List.drop_append_eq_append_drop,
        Nat.sub_eq_zero_of_le (show work.length - trailingPartialMatch work tag
          ≤ work.length by omega),
        List.drop_zero]
    rw [h1]
    exact List.drop_suffix _ _
  have key : ∀ m, m ≤ tag.length - 1 → tag.take m <:+ work ++ v →
      m ≤ trailingPartialMatch work tag + v.length := by
    intro m hm hs
    by_cases hmv : m ≤ v.length
    · omega
    · push_neg at hmv
      have hml : m ≤ work.length + v.length := by
        have := hs.length_le
        rw [List.length_take, List.length_append] at this
        omega
      have h2 := take_suffix_of_suffix_append hs (by omega) (by omega)
      have h3 := tpm_max work tag (by omega) (by omega) h2
      omega
  apply Nat.le_antisymm
  · apply tpm_max
    · rw [hsufflen]
      exact key _ (tpm_le_tag _ _) (tpm_suffix _ _)
    · exact tpm_le_tag _ _
    · refine suffix_of_suffix_length_le (tpm_suffix _ _) hsuffix ?_
      rw [List.length_take, hsufflen]
      have := key _ (tpm_le_tag (work ++ v) tag) (tpm_suffix (work ++ v) tag)
      omega
  · apply tpm_max
    · rw [List.length_append]
      have := tpm_le_text (work.drop (work.length - trailingPartialMatch work tag) ++ v) tag
      rw [hsufflen] at this
      omega
    · exact tpm_le_tag _ _
    · exact (tpm_suffix _ _).trans hsuffix

/-! ### loop step lemmas and fuel irrelevance -/

theorem tagOf_ne_nil (inside : Bool) : tagOf inside ≠ [] := by
  cases inside <;> decide

theorem tagOf_length_pos (inside : Bool) : 0 < (tagOf inside).length := by
  cases inside <;> decide

theorem procLoopF_succ_some {n : Nat} {inside : Bool} {th co work : List Char} {i : Nat}
    (hI : firstIdx work (tagOf inside) = some i) :
    procLoopF (n + 1) inside th co work
      = procLoopF n (!inside) (emitTo inside th co (work.take i)).1
          (emitTo inside th co (work.take i)).2
          (work.drop (i + (tagOf inside).length)) := by
  cases inside <;> simp only [tagOf, Bool.false_eq_true, if_false, if_true] at hI <;>
    simp only [procLoopF, tagOf, emitTo, hI, Bool.false_eq_true, if_false, if_true,
      Bool.not_false, Bool.not_true]

theorem procLoopF_succ_none {n : Nat} {inside : Bool} {th co work : List Char}
    (hI : firstIdx work (tagOf inside) = none) :
    procLoopF (n + 1) inside th co work
      = ⟨inside,
         work.drop (work.length - trailingPartialMatch work (tagOf inside)),
         (emitTo inside th co
           (work.take (work.length - trailingPartialMatch work (tagOf inside)))).1,
         (emitTo inside th co
           (work.take (work.length - trailingPartialMatch work (tagOf inside)))).2⟩ := by
  cases inside <;> simp only [tagOf, Bool.false_eq_true, if_false, if_true] at hI ⊢ <;>
    simp only [procLoopF, tagOf, emitTo, hI, Bool.false_eq_true, if_false, if_true,
      Bool.not_false, Bool.not_true]

theorem procLoopF_fuel_irrelevant :
    ∀ (f1 f2 : Nat) (inside : Bool) (th co work : List Char),
      work.length < f1 → work.length < f2 →
      procLoopF f1 inside th co work = procLoopF f2 inside th co work := by
  intro f1
  induction f1 with
  | zero => intro f2 inside th co work h1 h2; omega
  | succ n ih =>
    intro f2 inside th co work h1 h2
    cases f2 with
    | zero => omega
    | succ m =>
      cases hI : firstIdx work (tagOf inside) with
      | none => rw [procLoopF_succ_none hI, procLoopF_succ_none hI]
      | some i =>
        rw [procLoopF_succ_some hI, procLoopF_succ_some hI]
        have hb := firstIdx_some_bound hI (tagOf_ne_nil inside)
        have htl := tagOf_length_pos inside
        exact ih m _ _ _ _ (by rw [List.length_drop]; omega)
          (by rw [List.length_drop]; omega)

theorem refDemuxF_succ_some_out {n : Nat} {text : List Char} {i : Nat}
    (hI : firstIdx text OPEN_TAG = some i) :
    refDemuxF (n + 1) false text
      = ((refDemuxF n true (text.drop (i + OPEN_TAG.length))).1,
         text.take i ++ (refDemuxF n true (text.drop (i + OPEN_TAG.length))).2) := by
  simp only [refDemuxF, hI, Bool.false_eq_true, if_false, if_true]

theorem refDemuxF_succ_some_in {n : Nat} {text : List Char} {i : Nat}
    (hI : firstIdx text CLOSE_TAG = some i) :
    refDemuxF (n + 1) true text
      = (text.take i ++ (refDemuxF n false (text.drop (i + CLOSE_TAG.length))).1,
         (refDemuxF n false (text.drop (i + CLOSE_TAG.length))).2) := by
  simp only [refDemuxF, hI, Bool.false_eq_true, if_false, if_true]

theorem refDemuxF_succ_none {n : Nat} {inside : Bool} {text : List Char}
    (hI : firstIdx text (tagOf inside) = none) :
    refDemuxF (n + 1) inside text
      = (if inside then (text, ([] : List Char)) else (([] : List Char), text)) := by
  cases inside <;> simp only [tagOf, Bool.false_eq_true, if_false, if_true] at hI <;>
    simp only [refDemuxF, tagOf, hI, Bool.false_eq_true, if_false, if_true]

theorem refDemuxF_fuel_irrelevant :
    ∀ (f1 f2 : Nat) (inside : Bool) (text : List Char),
      text.length < f1 → text.length < f2 →
      refDemuxF f1 inside text = refDemuxF f2 inside text := by
  intro f1
  induction f1 with
  | zero => intro f2 inside text h1 h2; omega
  | succ n ih =>
    intro f2 inside text h1 h2
    cases f2 with
    | zero => omega
    | succ m =>
      cases hI : firstIdx text (tagOf inside) with
      | none => rw [refDemuxF_succ_none hI, refDemuxF_succ_none hI]
      | some i =>
        have hb := firstIdx_some_bound hI (tagOf_ne_nil inside)
        have htl := tagOf_length_pos inside
        have hrec := ih m (!inside) (text.drop (i + (tagOf inside).length))
          (by rw [List.length_drop]; omega) (by rw [List.length_drop]; omega)
        cases inside with
        | false =>
          rw [refDemuxF_succ_some_out hI, refDemuxF_succ_some_out hI]
          simp only [tagOf, Bool.false_eq_true, if_false, if_true, Bool.not_false,
            Bool.not_true] at hrec
          rw [hrec]
        | true =>
          rw [refDemuxF_succ_some_in hI, refDemuxF_succ_some_in hI]
          simp only [tagOf, Bool.false_eq_true, if_false, if_true, Bool.not_false,
            Bool.not_true] at hrec
          rw [hrec]

/-! ### the loop computes the reference demultiplexer -/

theorem take_append_shift {work v : List Char} {W j : Nat} (hW : W ≤ work.length)
    (hj : W ≤ j) : (work ++ v).take j = work.take W ++ (work.drop W ++ v).take (j - W) := by
  conv_lhs => rw [← List.take_append_drop W work]
  rw [List.append_assoc, List.take_append_eq_append_take, List.take_take, List.length_take]
  have h1 : min j W = W := by omega
  have h2 : min W work.length = W := by omega
  rw [h1, h2]

theorem procLoopF_ref : ∀ (fuel : Nat) (inside : Bool) (th co work : List Char),
    work.length < fuel →
    flushPair (procLoopF fuel inside th co work)
      = (th ++ (refDemuxF fuel inside work).1, co ++ (refDemuxF fuel inside work).2) := by
  intro fuel
  induction fuel with
  | zero => intro inside th co work h; omega
  | succ n ih =>
    intro inside th co work h
    cases hI : firstIdx work (tagOf inside) with
    | none =>
      rw [procLoopF_succ_none hI, refDemuxF_succ_none hI]
      cases inside <;>
        simp [flushPair, emitTo, List.append_assoc, List.take_append_drop]
    | some i =>
      have hb := firstIdx_some_bound hI (tagOf_ne_nil inside)
      have htl := tagOf_length_pos inside
      rw [procLoopF_succ_some hI]
      have hlt : (work.drop (i + (tagOf inside).length)).length < n := by
        rw [List.length_drop]; omega
      rw [ih (!inside) _ _ _ hlt]
      cases inside with
      | false =>
        simp only [tagOf, Bool.false_eq_true, if_false, if_true] at hI
        rw [refDemuxF_succ_some_out hI]
        simp [emitTo, tagOf, List.append_assoc]
      | true =>
        simp only [tagOf, Bool.false_eq_true, if_false, if_true] at hI
        rw [refDemuxF_succ_some_in hI]
        simp [emitTo, tagOf, List.append_assoc]

theorem procLoopF_append : ∀ (fuel : Nat) (inside : Bool) (th co work v : List Char),
    work.length < fuel →
    processContentText (procLoopF fuel inside th co work) v
      = procLoop inside th co (work ++ v) := by
  intro fuel
  induction fuel with
  | zero => intro inside th co work v h; omega
  | succ n ih =>
    intro inside th co work v h
    cases hI : firstIdx work (tagOf inside) with
    | some i =>
      have hb := firstIdx_some_bound hI (tagOf_ne_nil inside)
      have htl := tagOf_length_pos inside
      have hlt : (work.drop (i + (tagOf inside).length)).length < n := by
        rw [List.length_drop]; omega
      rw [procLoopF_succ_some hI, ih _ _ _ _ _ hlt]
      have hI2 : firstIdx (work ++ v) (tagOf inside) = some i :=
        firstIdx_append_some (tagOf_ne_nil inside) hI
      have hdrop : (work ++ v).drop (i + (tagOf inside).length)
          = work.drop (i + (tagOf inside).length) ++ v := by
        rw [List.drop_append_eq_append_drop, Nat.sub_eq_zero_of_le hb, List.drop_zero]
      have htake : (work ++ v).take i = work.take i := by
        rw [List.take_append_eq_append_take, Nat.sub_eq_zero_of_le (by omega),
          List.take_zero, List.append_nil]
      have hstep : procLoop inside th co (work ++ v)
          = procLoopF ((work ++ v).length) (!inside)
              (emitTo inside th co (work.take i)).1
              (emitTo inside th co (work.take i)).2
              (work.drop (i + (tagOf inside).length) ++ v) := by
        unfold procLoop
        rw [procLoopF_succ_some hI2, htake, hdrop]
      rw [hstep]
      unfold procLoop
      apply procLoopF_fuel_irrelevant
      · simp only [List.length_append, List.length_drop]; omega
      · simp only [List.length_append, List.length_drop]; omega
    | none =>
      have htl := tagOf_length_pos inside
      have hpw : trailingPartialMatch work (tagOf inside) ≤ work.length :=
        tpm_le_text work (tagOf inside)
      have hW : work.length - trailingPartialMatch work (tagOf inside) ≤ work.length := by
        omega
      rw [procLoopF_succ_none hI]
      show procLoop inside
          (emitTo inside th co
            (work.take (work.length - trailingPartialMatch work (tagOf inside)))).1
          (emitTo inside th co
            (work.take (work.length - trailingPartialMatch work (tagOf inside)))).2
          (work.drop (work.length - trailingPartialMatch work (tagOf inside)) ++ v)
        = procLoop inside th co (work ++ v)
      cases hJ : firstIdx (work ++ v) (tagOf inside) with
      | some j =>
        obtain ⟨hWj, hJ2⟩ := firstIdx_append_of_none_some hI hJ
        have hb2 := firstIdx_some_bound hJ2 (tagOf_ne_nil inside)
        simp only [List.length_append, List.length_drop] at hb2
        unfold procLoop
        rw [procLoopF_succ_some hJ2, procLoopF_succ_some hJ]
        have htake2 : (work ++ v).take j
            = work.take (work.length - trailingPartialMatch work (tagOf inside))
              ++ (work.drop (work.length - trailingPartialMatch work (tagOf inside)) ++ v).take
                  (j - (work.length - trailingPartialMatch work (tagOf inside))) :=
          take_append_shift hW hWj
        have hdrop2 : (work ++ v).drop (j + (tagOf inside).length)
            = (work.drop (work.length - trailingPartialMatch work (tagOf inside)) ++ v).drop
                (j - (work.length - trailingPartialMatch work (tagOf inside))
                  + (tagOf inside).length) := by
          rw [drop_append_shift hW (by omega)]
          congr 1
          omega
        rw [htake2, hdrop2]
        cases inside with
        | false =>
          simp only [emitTo, Bool.false_eq_true, if_false, List.append_assoc]
          apply procLoopF_fuel_irrelevant <;>
            simp only [List.length_append, List.length_drop] <;> omega
        | true =>
          simp only [emitTo, if_true, List.append_assoc]
          apply procLoopF_fuel_irrelevant <;>
            simp only [List.length_append, List.length_drop] <;> omega
      | none =>
        have hJ2 := firstIdx_append_of_none_none hI hJ
        have hptpm := @tpm_append_of_none work v (tagOf inside) (tagOf_ne_nil inside) hI
        have hp1 : trailingPartialMatch
            (work.drop (work.length - trailingPartialMatch work (tagOf inside)) ++ v)
            (tagOf inside)
            ≤ (work.drop (work.length - trailingPartialMatch work (tagOf inside)) ++ v).length :=
          tpm_le_text _ _
        simp only [List.length_append, List.length_drop] at hp1
        unfold procLoop
        rw [procLoopF_succ_none hJ2, procLoopF_succ_none hJ, hptpm]
        have hdropeq : (work ++ v).drop ((work ++ v).length
              - trailingPartialMatch
                  (work.drop (work.length - trailingPartialMatch work (tagOf inside)) ++ v)
                  (tagOf inside))
            = (work.drop (work.length - trailingPartialMatch work (tagOf inside)) ++ v).drop
                ((work.drop (work.length - trailingPartialMatch work (tagOf inside)) ++ v).length
                  - trailingPartialMatch
                      (work.drop (work.length - trailingPartialMatch work (tagOf inside)) ++ v)
                      (tagOf inside)) := by
          rw [drop_append_shift hW
            (by simp only [List.length_append]; omega)]
          congr 1
          simp only [List.length_append, List.length_drop]
          omega
        have htakeeq : (work ++ v).take ((work ++ v).length
              - trailingPartialMatch
                  (work.drop (work.length - trailingPartialMatch work (tagOf inside)) ++ v)
                  (tagOf inside))
            = work.take (work.length - trailingPartialMatch work (tagOf inside))
              ++ (work.drop (work.length - trailingPartialMatch work (tagOf inside)) ++ v).take
                  ((work.drop (work.length - trailingPartialMatch work (tagOf inside)) ++ v).length
                    - trailingPartialMatch
                        (work.drop (work.length - trailingPartialMatch work (tagOf inside)) ++ v)
                        (tagOf inside)) := by
          rw [take_append_shift hW
            (by simp only [List.length_append]; omega)]
          congr 2
          simp only [List.length_append, List.length_drop]
          omega
        rw [hdropeq, htakeeq]
        cases inside with
        | false =>
          simp only [emitTo, Bool.false_eq_true, if_false, List.append_assoc]
        | true =>
          simp only [emitTo, if_true, List.append_assoc]

theorem runChunks_procLoop : ∀ (chunks : List (List Char)) (inside : Bool)
    (th co work : List Char),
    runChunks (procLoop inside th co work) chunks
      = procLoop inside th co (work ++ chunks.flatten) := by
  intro chunks
  induction chunks with
  | nil => intro inside th co work; simp [runChunks]
  | cons c cs ih =>
    intro inside th co work
    have h1 : runChunks (procLoop inside th co work) (c :: cs)
        = runChunks (processContentText (procLoop inside th co work) c) cs := rfl
    have h2 : processContentText (procLoop inside th co work) c
        = procLoop inside th co (work ++ c) :=
      procLoopF_append (work.length + 1) inside th co work c (Nat.lt_succ_self _)
    rw [h1, h2, ih, List.flatten_cons, ← List.append_assoc]

/-- The initial demultiplexer state is the loop run on the empty stream. -/
theorem initDemux_eq : initDemux = procLoop false [] [] [] := rfl

/-- C6 corrected: the claim's "concatenation of the substrings enclosed in
tag pairs" reading fails on an unterminated `<think>` region — `flushDeferred`
emits the residue with the then-current classification, so the open region's
text goes to `thinking` even though no closing tag ever pairs it (see the
counterexample).  What does hold, and what this theorem states, is the
region semantics together with full chunk-boundary independence: for EVERY
way of splitting a content stream into chunks, running the demultiplexer
chunk by chunk and flushing at end of stream yields exactly the
(thinking, content) pair of the reference region demultiplexer on the whole
concatenated stream — text inside think regions (a region being opened by
`<think>` and closed by the matching `</think>` or the end of the stream)
accumulates to `thinking`, text outside to `content`, and the result is
independent of the chunk boundaries. -/
theorem C6_stream_demux (chunks : List (List Char)) :
    flushPair (runChunks initDemux chunks) = refDemux false chunks.flatten := by
  rw [initDemux_eq, runChunks_procLoop, List.nil_append]
  unfold procLoop refDemux
  exact procLoopF_ref (chunks.flatten.length + 1) false [] [] chunks.flatten
    (Nat.lt_succ_self _)

/-- C6 counterexample to the literal claim: on the single-chunk stream
`"<think>a"` the demultiplexer (with the end-of-stream flush) accumulates
`"a"` as thinking text, but no `<think>…</think>` tag PAIR is ever completed,
so the concatenation of the substrings enclosed in tag pairs is empty — the
accumulated thinking text differs from what is inside tag pairs. -/
theorem C6_counterexample :
    (flushPair (runChunks initDemux ["<think>a".toList])).1
      ≠ pairsThinking (List.flatten ["<think>a".toList]) := by
  decide

end Arena
